import Mathlib

/-!
Verification of the X3D exporter (`io_scene_x3d/export_x3d.py`).

This file shallowly embeds the exporter's core logic — the identifier
sanitizers, the tag-based reference cache, the face grouping engine, the
triangulation/welding engine, the material translator and the mesh-writer
skeleton — as executable Lean definitions, and proves the specification's
claims about them.

Conventions of the embedding:
* Python floats are modelled as exact rationals (`ℚ`); the claims under
  scrutiny are about the computed values before decimal formatting.
* Python exceptions (e.g. indexing an empty string) are modelled by
  `Option`, with `none` for the raising path.
* Mutable per-asset `tag` flags are modelled by explicit state passing.
* Output is modelled at node granularity (`Node`, `DefUse`, …); numeric
  formatting of individual fields is outside the claims treated here.
* Blender images are identified by their name (an `Option String`, `none`
  when a face group has no image); Blender keeps datablock names unique.
-/

namespace X3D

/-- Reserved X3D node names (`x3d_names_reserved`, lines 44-69 of the source). -/
def x3d_names_reserved : List String :=
  ["Anchor", "Appearance", "Arc2D", "ArcClose2D", "AudioClip", "Background", "Billboard",
   "BooleanFilter", "BooleanSequencer", "BooleanToggle", "BooleanTrigger", "Box", "Circle2D",
   "Collision", "Color", "ColorInterpolator", "ColorRGBA", "component", "Cone", "connect",
   "Contour2D", "ContourPolyline2D", "Coordinate", "CoordinateDouble", "CoordinateInterpolator",
   "CoordinateInterpolator2D", "Cylinder", "CylinderSensor", "DirectionalLight", "Disk2D",
   "ElevationGrid", "EspduTransform", "EXPORT", "ExternProtoDeclare", "Extrusion", "field",
   "fieldValue", "FillProperties", "Fog", "FontStyle", "GeoCoordinate", "GeoElevationGrid",
   "GeoLocationLocation", "GeoLOD", "GeoMetadata", "GeoOrigin", "GeoPositionInterpolator",
   "GeoTouchSensor", "GeoViewpoint", "Group", "HAnimDisplacer", "HAnimHumanoid", "HAnimJoint",
   "HAnimSegment", "HAnimSite", "head", "ImageTexture", "IMPORT", "IndexedFaceSet",
   "IndexedLineSet", "IndexedTriangleFanSet", "IndexedTriangleSet", "IndexedTriangleStripSet",
   "Inline", "IntegerSequencer", "IntegerTrigger", "IS", "KeySensor", "LineProperties", "LineSet",
   "LoadSensor", "LOD", "Material", "meta", "MetadataDouble", "MetadataFloat", "MetadataInteger",
   "MetadataSet", "MetadataString", "MovieTexture", "MultiTexture", "MultiTextureCoordinate",
   "MultiTextureTransform", "NavigationInfo", "Normal", "NormalInterpolator", "NurbsCurve",
   "NurbsCurve2D", "NurbsOrientationInterpolator", "NurbsPatchSurface",
   "NurbsPositionInterpolator", "NurbsSet", "NurbsSurfaceInterpolator", "NurbsSweptSurface",
   "NurbsSwungSurface", "NurbsTextureCoordinate", "NurbsTrimmedSurface", "OrientationInterpolator",
   "PixelTexture", "PlaneSensor", "PointLight", "PointSet", "Polyline2D", "Polypoint2D",
   "PositionInterpolator", "PositionInterpolator2D", "ProtoBody", "ProtoDeclare", "ProtoInstance",
   "ProtoInterface", "ProximitySensor", "ReceiverPdu", "Rectangle2D", "ROUTE", "ScalarInterpolator",
   "Scene", "Script", "Shape", "SignalPdu", "Sound", "Sphere", "SphereSensor", "SpotLight",
   "StaticGroup", "StringSensor", "Switch", "Text", "TextureBackground", "TextureCoordinate",
   "TextureCoordinateGenerator", "TextureTransform", "TimeSensor", "TimeTrigger", "TouchSensor",
   "Transform", "TransmitterPdu", "TriangleFanSet", "TriangleSet", "TriangleSet2D",
   "TriangleStripSet", "Viewpoint", "VisibilitySensor", "WorldInfo", "X3D", "XvlShell",
   "VertexShader", "FragmentShader", "MultiShaderAppearance", "ShaderAppearance"]

/-- Replace every occurrence of `pat` in the scanned character list by `rep`,
scanning left to right without overlap — the semantics of Python's
`str.replace`.  The `fuel` argument only bounds the recursion structurally and
is instantiated with the length of the scanned list. -/
def replaceCharsAux (pat rep : List Char) : Nat → List Char → List Char
  | _, [] => []
  | 0, s => s
  | fuel + 1, c :: rest =>
    if pat ≠ [] ∧ pat.isPrefixOf (c :: rest) then
      rep ++ replaceCharsAux pat rep fuel ((c :: rest).drop pat.length)
    else
      c :: replaceCharsAux pat rep fuel rest

/-- Python's `s.replace(pat, rep)`. -/
def pyReplace (s pat rep : String) : String :=
  String.mk (replaceCharsAux pat.data rep.data s.data.length s.data)

/-- The substrings replaced by an underscore in `clean_str` (line 91).
The single quote and the curly braces are spelled via character codes. -/
def clean_str_bads : List String :=
  [" ", "\"", "#", String.mk [Char.ofNat 39], ", ", ".", "[", "\\", "]",
   String.mk [Char.ofNat 123], String.mk [Char.ofNat 125]]

/-- Embedding of `clean_str(name, prefix)` (lines 80-93).  `none` models the
`IndexError` raised by `newName[0]` when `newName` is empty; every other path
returns `some`. -/
def clean_str (name : String) (pre : String) : Option String :=
  let newName := if name ∈ x3d_names_reserved then pre ++ name else name
  match newName.data with
  | [] => none
  | c :: _ =>
    let newName2 := if c.isDigit then "_" ++ newName else newName
    some (clean_str_bads.foldl (fun s bad => pyReplace s bad "_") newName2)

/-- The substrings replaced by an underscore in `secureName` (line 263):
as in `clean_str` but without the plain space. -/
def secureName_bads : List String :=
  ["\"", "#", String.mk [Char.ofNat 39], ", ", ".", "[", "\\", "]",
   String.mk [Char.ofNat 123], String.mk [Char.ofNat 125]]

/-- Embedding of `secureName(name)` (lines 256-274), with the process-wide
counter `secureName.nodeID` passed in and returned explicitly.  The source
first appends the current counter to `name`, then increments the counter, and
only then branches on the length of the extended name. -/
def secureName (name : String) (nodeID : Nat) : String × Nat :=
  let name2 := name ++ toString nodeID
  let nodeID2 := nodeID + 1
  if name2.length ≤ 3 then
    ("_" ++ toString nodeID2, nodeID2)
  else
    let name3 := secureName_bads.foldl (fun s bad => pyReplace s bad "_") name2
    if name3 ∈ x3d_names_reserved then
      (String.mk (name3.data.take 3) ++ "_" ++ toString nodeID2, nodeID2)
    else if (name3.data.headD (Char.ofNat 32)).isDigit then
      ("_" ++ name3 ++ toString nodeID2, nodeID2)
    else
      (name3, nodeID2)

/-- Embedding of `clamp_color` (lines 72-73), specialised to colour triples. -/
def clamp_color (col : ℚ × ℚ × ℚ) : ℚ × ℚ × ℚ :=
  (max (min col.1 1) 0, max (min col.2.1 1) 0, max (min col.2.2 1) 0)

/-- The shading-relevant fields of a Blender material read by `writeMaterial`. -/
structure BMaterial where
  emit : ℚ
  ambient : ℚ
  diffuse_color : ℚ × ℚ × ℚ
  specular_hardness : ℚ
  specular_intensity : ℚ
  specular_color : ℚ × ℚ × ℚ
  alpha : ℚ
  use_shadeless : Bool
  tag : Bool
deriving DecidableEq

/-- The world-environment field read by `writeMaterial`. -/
structure BWorld where
  ambient_color : ℚ × ℚ × ℚ
deriving DecidableEq

/-- The numeric fields of an emitted `<Material DEF=…>` node, in the state
just before decimal formatting (colour triples already clamped). -/
structure MaterialFields where
  diffuseColor : ℚ × ℚ × ℚ
  specularColor : ℚ × ℚ × ℚ
  emissiveColor : ℚ × ℚ × ℚ
  ambientIntensity : ℚ
  shininess : ℚ
  transparency : ℚ
deriving DecidableEq

/-- A material emission: either a `USE` back-reference or a full `DEF`. -/
inductive MaterialOut
  | use (material_id : String)
  | defn (material_id : String) (fields : MaterialFields)
deriving DecidableEq

/-- Embedding of `writeMaterial(ident, mat, material_id, world)`
(lines 722-754): the `mat.tag` cache check, the lighting-model conversion,
the `use_shadeless` override, and the clamping of the three colour triples
before formatting.  The updated material (with its `tag` set) is returned
alongside the emission. -/
def writeMaterial (mat : BMaterial) (material_id : String) (world : Option BWorld) :
    MaterialOut × BMaterial :=
  if mat.tag then
    (MaterialOut.use ("MA_" ++ material_id), mat)
  else
    let emit := mat.emit
    let ambient := mat.ambient / 3
    let diffuseColor := mat.diffuse_color
    let ambiColor : ℚ × ℚ × ℚ :=
      match world with
      | some w =>
        ((w.ambient_color.1 * mat.ambient) * 2,
         (w.ambient_color.2.1 * mat.ambient) * 2,
         (w.ambient_color.2.2 * mat.ambient) * 2)
      | none => (0, 0, 0)
    let emitColor :=
      ((diffuseColor.1 * emit + ambiColor.1) / 2,
       (diffuseColor.2.1 * emit + ambiColor.2.1) / 2,
       (diffuseColor.2.2 * emit + ambiColor.2.2) / 2)
    let shininess := mat.specular_hardness / 512
    let specColor :=
      ((mat.specular_color.1 + 0.001) / (1.25 / (mat.specular_intensity + 0.001)),
       (mat.specular_color.2.1 + 0.001) / (1.25 / (mat.specular_intensity + 0.001)),
       (mat.specular_color.2.2 + 0.001) / (1.25 / (mat.specular_intensity + 0.001)))
    let transp := 1 - mat.alpha
    let ambient2 := if mat.use_shadeless then 1 else ambient
    let shininess2 := if mat.use_shadeless then 0 else shininess
    let specColor2 := if mat.use_shadeless then diffuseColor else specColor
    let emitColor2 := if mat.use_shadeless then diffuseColor else emitColor
    (MaterialOut.defn ("MA_" ++ material_id)
      { diffuseColor := clamp_color diffuseColor
        specularColor := clamp_color specColor2
        emissiveColor := clamp_color emitColor2
        ambientIntensity := ambient2
        shininess := shininess2
        transparency := transp },
     { mat with tag := true })

/-- The emissive colour as claim C4 words it: per channel
`((diffuse·emit) + worldAmbientTerm) / 2` with `worldAmbientTerm` the
*diffuse-channel-weighted* ambient colour of the world (0 without a world),
clamped to `[0,1]`.  This definition follows the claim's words, to be compared
against the emissive colour the embedded `writeMaterial` computes. -/
def claimEmissiveColor (mat : BMaterial) (world : Option BWorld) : ℚ × ℚ × ℚ :=
  let d := mat.diffuse_color
  let wa : ℚ × ℚ × ℚ :=
    match world with
    | some w => (d.1 * w.ambient_color.1, d.2.1 * w.ambient_color.2.1, d.2.2 * w.ambient_color.2.2)
    | none => (0, 0, 0)
  clamp_color
    ((d.1 * mat.emit + wa.1) / 2, (d.2.1 * mat.emit + wa.2.1) / 2, (d.2.2 * mat.emit + wa.2.2) / 2)

/-- Extract the emissive colour of a material emission, when it is a `DEF`. -/
def emissiveOf : MaterialOut → Option (ℚ × ℚ × ℚ)
  | MaterialOut.use _ => none
  | MaterialOut.defn _ f => some f.emissiveColor

/-! ### Face grouping (lines 368-393)

A face is keyed by `(material_index, effective image)`.  The effective-image
resolution (lines 368-376) happens upstream of the grouping step modelled
here, so a mesh carries its resolved `mesh_faces_image` list directly.
Images are identified by their (unique) Blender name. -/

/-- `getattr(image, 'name', '')` (line 390): the identifier an image
contributes to the sort key, the empty string for `None`. -/
def imgName : Option String → String
  | none => ""
  | some s => s

/-- The bucket keys pre-created by the double loop of lines 380-382: one per
pair of a material index below `nmat = len(mesh_materials)` and a member of
`mesh_faces_image_unique`. -/
def face_groups_keys (nmat : Nat) (uniq : List (Option String)) :
    List (Nat × Option String) :=
  (List.range nmat).flatMap (fun material_index => uniq.map (fun image => (material_index, image)))

/-- One `face_groups[material_index, image].append(i)` step (line 386), on the
bucket map represented as a function from keys to face-index lists. -/
def face_groups_insert (fg : Nat × Option String → List Nat) (i : Nat)
    (k : Nat × Option String) : Nat × Option String → List Nat :=
  fun k2 => if k2 = k then fg k2 ++ [i] else fg k2

/-- The face loop of lines 385-386: append face `i`, `i+1`, … each to the
bucket of its `(material_index, image)` key. -/
def face_groups_build (fg : Nat × Option String → List Nat) (i : Nat) :
    List (Nat × Option String) → (Nat × Option String → List Nat)
  | [] => fg
  | f :: rest => face_groups_build (face_groups_insert fg i f) (i + 1) rest

/-- The populated bucket map for a face list (each face given as its
`(material_index, image)` pair). -/
def face_groups_fun (faces : List (Nat × Option String)) :
    Nat × Option String → List Nat :=
  face_groups_build (fun _ => []) 0 faces

/-! Python's `list.sort` is a stable ascending sort; the code sorts the bucket
items by the key `(material_index, getattr(image, 'name', ''))` (line 390),
comparing names by code points.  The sort is embedded as a stable insertion
sort over an executable comparison. -/

/-- Code-point lexicographic strict comparison of strings, as Python compares
`str` values. -/
def strLTb : List Char → List Char → Bool
  | [], [] => false
  | [], _ :: _ => true
  | _ :: _, [] => false
  | a :: as, b :: bs =>
    if a.toNat < b.toNat then true
    else if b.toNat < a.toNat then false
    else strLTb as bs

/-- `a <= b` on Python strings (total order, so `¬ (b < a)`). -/
def pyStrLE (a b : String) : Bool := !strLTb b.data a.data

/-- The ascending comparison on bucket items induced by the sort key of
line 390: material index first, image name second. -/
def groupLE (a b : (Nat × Option String) × List Nat) : Bool :=
  decide (a.1.1 < b.1.1) || (decide (a.1.1 = b.1.1) && pyStrLE (imgName a.1.2) (imgName b.1.2))

/-- Insert into a sorted list after every element that compares `le` to the
inserted one — the insertion step of a stable ascending sort. -/
def pyInsert (le : α → α → Bool) (a : α) : List α → List α
  | [] => [a]
  | b :: l => if le b a then b :: pyInsert le a l else a :: b :: l

/-- A stable ascending sort (the semantics of Python's `list.sort`). -/
def pySort (le : α → α → Bool) (l : List α) : List α :=
  l.foldr (pyInsert le) []

/-- `face_groups_items` (lines 389-390): the bucket items, sorted by
`(material_index, image name)` ascending. -/
def face_groups_items (nmat : Nat) (uniq : List (Option String))
    (faces : List (Nat × Option String)) : List ((Nat × Option String) × List Nat) :=
  pySort groupLE ((face_groups_keys nmat uniq).map (fun k => (k, face_groups_fun faces k)))

/-- The groups that actually emit a `<Shape>`: the `if face_group:` guard of
line 393 skips empty buckets. -/
def emitted_face_groups (nmat : Nat) (uniq : List (Option String))
    (faces : List (Nat × Option String)) : List ((Nat × Option String) × List Nat) :=
  (face_groups_items nmat uniq faces).filter (fun g => !g.2.isEmpty)

/-- Specification view of a bucket, used to state the grouping theorems: the
face indices (counting from `i`) whose `(material_index, image)` key equals
`k`, in face order. -/
def bucketSpec (k : Nat × Option String) (i : Nat) :
    List (Nat × Option String) → List Nat
  | [] => []
  | f :: rest =>
    if f = k then i :: bucketSpec k (i + 1) rest else bucketSpec k (i + 1) rest

/-! ### Triangulation and vertex welding (lines 516-556)

In `use_triangulate` mode each face group is converted to triangles over
welded vertices.  `vertex_hash` is a per-original-vertex dictionary from the
active-attribute key (the closed-over `vertex_key(fidx, f_cnr_idx)` value) to
the welded-vertex record `x3d_v = (key, original_vertex, new_index)`;
`vert_tri_list` collects the records in assignment order.  The key type `K`
abstracts over the four `vertex_key` variants (UV and/or colour tuples, or
`None`). -/

/-- The per-group welding state: `vertex_hash` (line 517) as a function from
original vertex index to its key-indexed dictionary (an association list),
and `vert_tri_list` (line 520). -/
structure WeldState (K : Type) where
  vertex_hash : Nat → List (K × Nat × Nat)
  vert_tri_list : List (K × Nat × Nat)

/-- Dictionary lookup `vh.get(key)` (line 529): the entry records its own key
in its first component. -/
def findKey [DecidableEq K] (l : List (K × Nat × Nat)) (k : K) : Option (K × Nat × Nat) :=
  l.find? (fun e => decide (e.1 = k))

/-- The fresh state built at lines 517-521 for each face group. -/
def initWeld (K : Type) : WeldState K := ⟨fun _ => [], []⟩

/-- Lines 527-536, one face corner: look the key up in the vertex's
dictionary; on a miss allot the next output index `totvert`
(`= vert_tri_list.length`), record the new `x3d_v` in both the dictionary and
`vert_tri_list`.  Returns the corner's welded record. -/
def weldCorner [DecidableEq K] (k : K) (v : Nat) (st : WeldState K) :
    WeldState K × (K × Nat × Nat) :=
  match findKey (st.vertex_hash v) k with
  | some e => (st, e)
  | none =>
    let e : K × Nat × Nat := (k, v, st.vert_tri_list.length)
    (⟨fun v2 => if v2 = v then e :: st.vertex_hash v2 else st.vertex_hash v2,
      st.vert_tri_list ++ [e]⟩, e)

/-- The corner loop `for j, v_idx in enumerate(fv)` (line 526): `j` is the
running corner index within the face; returns the `temp_face` records in
corner order. -/
def processCornersAux [DecidableEq K] (key : Nat → Nat → K) (i : Nat) :
    Nat → List Nat → WeldState K → WeldState K × List (K × Nat × Nat)
  | _, [], st => (st, [])
  | j, v :: rest, st =>
    let r := weldCorner (key i j) v st
    let rr := processCornersAux key i (j + 1) rest r.1
    (rr.1, r.2 :: rr.2)

/-- All corners of one face, starting at corner index 0. -/
def processCorners [DecidableEq K] (key : Nat → Nat → K) (i : Nat) (fv : List Nat)
    (st : WeldState K) : WeldState K × List (K × Nat × Nat) :=
  processCornersAux key i 0 fv st

/-- Lines 538-549: a 4-corner face yields the fixed fan `(0,1,2), (0,2,3)`
over its corner records' output indices, any other face the single triangle
`(0,1,2)` (the source only ever sees 3- or 4-corner faces). -/
def faceTris {K : Type} (cs : List (K × Nat × Nat)) : List (Nat × Nat × Nat) :=
  match cs with
  | [a, b, c, d] => [(a.2.2, b.2.2, c.2.2), (a.2.2, c.2.2, d.2.2)]
  | a :: b :: c :: _ => [(a.2.2, b.2.2, c.2.2)]
  | _ => []

/-- The face loop `for i in face_group` (lines 524-549): weld each face's
corners, then append its triangles to the running triangle list. -/
def weldGroupAux [DecidableEq K] (key : Nat → Nat → K) (mfv : List (List Nat)) :
    List Nat → WeldState K → WeldState K × List (Nat × Nat × Nat)
  | [], st => (st, [])
  | i :: rest, st =>
    let r := processCorners key i (mfv.getD i []) st
    let rr := weldGroupAux key mfv rest r.1
    (rr.1, faceTris r.2 ++ rr.2)

/-- One face group in full-triangulation mode: fresh welding state, then the
face loop.  `mfv` is `mesh_faces_vertices` (line 366), `face_group` the
group's face-index list. -/
def weldGroup [DecidableEq K] (key : Nat → Nat → K) (mfv : List (List Nat))
    (face_group : List Nat) : WeldState K × List (Nat × Nat × Nat) :=
  weldGroupAux key mfv face_group (initWeld K)

/-- Observation used to state the welding theorems: the welded records a
face's corners resolve to in a (final) state, by dictionary lookup. -/
def cornerOutsAux [DecidableEq K] (st : WeldState K) (key : Nat → Nat → K) (i : Nat) :
    Nat → List Nat → List (K × Nat × Nat)
  | _, [] => []
  | j, v :: rest =>
    match findKey (st.vertex_hash v) (key i j) with
    | some e => e :: cornerOutsAux st key i (j + 1) rest
    | none => cornerOutsAux st key i (j + 1) rest

/-- The welded records of all corners of face `i`, resolved in state `st`. -/
def cornerOuts [DecidableEq K] (st : WeldState K) (key : Nat → Nat → K)
    (mfv : List (List Nat)) (i : Nat) : List (K × Nat × Nat) :=
  cornerOutsAux st key i 0 (mfv.getD i [])

/-- Invariant of the welding state: dictionary entries live in the bucket of
their own vertex, no bucket holds two entries for one key, the dictionaries
and `vert_tri_list` hold the same records, and a record's stored output index
is its position in `vert_tri_list`. -/
def WInv {K : Type} (st : WeldState K) : Prop :=
  (∀ v e, e ∈ st.vertex_hash v → e.2.1 = v) ∧
  (∀ v, (st.vertex_hash v).Pairwise (fun a b => a.1 ≠ b.1)) ∧
  (∀ v e, e ∈ st.vertex_hash v → e ∈ st.vert_tri_list) ∧
  (∀ e, e ∈ st.vert_tri_list → e ∈ st.vertex_hash e.2.1) ∧
  (∀ n (h : n < st.vert_tri_list.length), (st.vert_tri_list[n]).2.2 = n)

/-- `st'` extends `st`: every dictionary binding of `st` still resolves to the
same record in `st'`. -/
def WExt {K : Type} [DecidableEq K] (st st' : WeldState K) : Prop :=
  ∀ v k e, findKey (st.vertex_hash v) k = some e → findKey (st'.vertex_hash v) k = some e

/-! ### Reference cache: DEF-once / USE-thereafter (lines 326-331, 724-727,
918-926)

Each of meshes, materials and images carries a boolean `tag`; the first
emission writes a full `DEF` definition and sets the tag, later emissions
write a `USE` reference to the identifier recomputed from the asset's name. -/

/-- A node emission of a cached asset: full definition or back-reference. -/
inductive DefUse
  | defNode (id : String)
  | useNode (id : String)
deriving DecidableEq

/-- Embedding of `writeImageTexture(ident, image)` restricted to its
DEF/USE discipline (lines 918-926): identifier `clean_str(image.name)`,
`USE` when tagged, else tag and `DEF`.  (The url candidate-path resolution of
lines 927-939 involves the filesystem and is outside the claims here.) -/
def writeImageTexture (image_name : String) (tag : Bool) : Option (DefUse × Bool) :=
  match clean_str image_name "rsvd_" with
  | some idStr =>
    if tag then some (DefUse.useNode idStr, tag)
    else some (DefUse.defNode idStr, true)
  | none => none

/-- Iterated emissions of one image asset, threading its tag. -/
def imageEmitSeq (image_name : String) : Nat → Bool → List DefUse
  | 0, _ => []
  | n + 1, tag =>
    match writeImageTexture image_name tag with
    | some r => r.1 :: imageEmitSeq image_name n r.2
    | none => []

/-! ### The mesh writer skeleton (`writeIndexedFaceSet`, lines 276-720)

The emission is modelled at node granularity.  Numeric payloads (matrix
decomposition, coordinate arrays) are abstracted away; the structure —
early return on a faceless mesh, the face-flag wrapper, the transform, the
mesh-level group DEF/USE, and one shape per non-empty face group — follows
the source. -/

/-- The per-face flags read from `mesh.uv_textures.active.data`
(lines 292-297). -/
structure UVFaceFlags where
  use_halo : Bool
  use_billboard : Bool
  use_collision : Bool
deriving DecidableEq

/-- The mesh data consumed by the writer skeleton.  `faces_image` is the
resolved `mesh_faces_image` of lines 368-376 (resolution itself is upstream
of the grouped emission modelled here); `n_materials` is
`len(mesh_materials)` after the `[None]` substitution of lines 340-341, so it
is at least 1.  `uv_faces` is empty when the mesh has no active UV layer. -/
structure BMesh where
  name : String
  faces_vertices : List (List Nat)
  faces_material_index : List Nat
  faces_image : List (Option String)
  n_materials : Nat
  uv_faces : List UVFaceFlags
  tag : Bool
deriving DecidableEq

/-- Output nodes of the writer skeleton. -/
inductive Node
  | billboardOpen (axisOfRotation : String)
  | collisionOpen
  | transformOpen (defName : String)
  | groupUse (defName : String)
  | groupOpen (defName : String)
  | shape (material_index : Nat) (image : Option String)
  | groupClose
  | transformClose
  | billboardClose
  | collisionClose
deriving DecidableEq

/-- The wrapper opens (lines 299-310) and closes (lines 712-720). -/
def isWrapperNode : Node → Bool
  | Node.billboardOpen _ => true
  | Node.collisionOpen => true
  | _ => false

/-- Embedding of the structure of `writeIndexedFaceSet(ident, ob, mesh, mtx,
world)` (lines 276-720): sanitize the two names (raising — `none` — on empty
ones, line 278-279), return silently on a faceless mesh (281-282), fold the
per-face halo/billboard/collision flags (292-297), open at most one wrapper
with halo over billboard over collision precedence (299-310), write the
transform (319-324), then either a `USE` of the mesh-level group (326-327) or
its `DEF` with one shape per non-empty face group (329-704), and close
everything in reverse order.  Returns the nodes and the updated `mesh.tag`. -/
def writeIndexedFaceSet (ob_name : String) (mesh : BMesh) : Option (List Node × Bool) :=
  match clean_str ob_name "rsvd_", clean_str mesh.name "rsvd_" with
  | some shape_name_x3d, some mesh_name_x3d =>
    if mesh.faces_vertices = [] then some ([], mesh.tag)
    else
      let texface_use_halo := mesh.uv_faces.foldl (fun a f => a || f.use_halo) false
      let texface_use_billboard := mesh.uv_faces.foldl (fun a f => a || f.use_billboard) false
      let texface_use_collision := mesh.uv_faces.foldl (fun a f => a || f.use_collision) false
      let wrapOpen : List Node :=
        if texface_use_halo then [Node.billboardOpen "0 0 0"]
        else if texface_use_billboard then [Node.billboardOpen "0 1 0"]
        else if texface_use_collision then [Node.collisionOpen]
        else []
      let wrapClose : List Node :=
        if texface_use_halo then [Node.billboardClose]
        else if texface_use_billboard then [Node.billboardClose]
        else if texface_use_collision then [Node.collisionClose]
        else []
      let groupPart : List Node :=
        if mesh.tag then [Node.groupUse ("G_" ++ mesh_name_x3d)]
        else
          Node.groupOpen ("G_" ++ mesh_name_x3d) ::
            (emitted_face_groups mesh.n_materials mesh.faces_image.dedup
                (mesh.faces_material_index.zip mesh.faces_image)).map
              (fun g => Node.shape g.1.1 g.1.2) ++ [Node.groupClose]
      some (wrapOpen ++ (Node.transformOpen shape_name_x3d :: groupPart ++ [Node.transformClose])
              ++ wrapClose,
            true)
  | _, _ => none

/-- A colour triple with every channel in `[0, 1]`. -/
def unitTriple (c : ℚ × ℚ × ℚ) : Prop :=
  0 ≤ c.1 ∧ c.1 ≤ 1 ∧ 0 ≤ c.2.1 ∧ c.2.1 ≤ 1 ∧ 0 ≤ c.2.2 ∧ c.2.2 ≤ 1

/-- Concrete material for evaluating the material translator: emits nothing
by itself (`emit = 0`), ambient scalar 1/2, uniform dark diffuse. -/
def mat0 : BMaterial :=
  { emit := 0, ambient := 1/2, diffuse_color := (1/5, 1/5, 1/5),
    specular_hardness := 50, specular_intensity := 1/2,
    specular_color := (1, 1, 1), alpha := 1,
    use_shadeless := false, tag := false }

/-- Concrete world with full ambient colour. -/
def world0 : BWorld := { ambient_color := (1, 1, 1) }

/-- A second concrete material, with mixed channels. -/
def mat1 : BMaterial :=
  { emit := 1/2, ambient := 3/5, diffuse_color := (1/2, 1/4, 1),
    specular_hardness := 128, specular_intensity := 1/2,
    specular_color := (1/3, 1/3, 1/3), alpha := 3/4,
    use_shadeless := false, tag := false }

/-- `mat1` with the shadeless flag set. -/
def mat1shadeless : BMaterial := { mat1 with use_shadeless := true }

/-- A concrete quad mesh whose single UV face requests halo and collision. -/
def meshHalo : BMesh :=
  { name := "CubeMesh", faces_vertices := [[0, 1, 2, 3]], faces_material_index := [0],
    faces_image := [none], n_materials := 1,
    uv_faces := [{ use_halo := true, use_billboard := false, use_collision := true }],
    tag := false }

/-- A concrete faceless mesh. -/
def meshEmpty : BMesh :=
  { name := "EmptyMesh", faces_vertices := [], faces_material_index := [],
    faces_image := [], n_materials := 1, uv_faces := [], tag := false }

/-- A concrete mesh with two materials, one quad face and one triangle. -/
def meshTwo : BMesh :=
  { name := "TwoMesh", faces_vertices := [[0, 1, 2, 3], [0, 2, 3]],
    faces_material_index := [1, 0], faces_image := [some "imgA", none],
    n_materials := 2, uv_faces := [], tag := false }

/-!
## Theorems

Helper lemmas first, then one theorem per claim (with a witness where the
theorem carries hypotheses).
-/

/-- A non-empty string has a non-empty character list. -/
theorem string_data_ne_nil {s : String} (h : s ≠ "") : s.data ≠ [] := by
  intro hc
  apply h
  cases s with
  | mk d =>
    simp only [String.data] at hc
    subst hc
    rfl

/-- `clean_str` succeeds on every non-empty name. -/
theorem clean_str_isSome (name pre : String) (h : name ≠ "") :
    (clean_str name pre).isSome := by
  have hdata : name.data ≠ [] := string_data_ne_nil h
  unfold clean_str
  by_cases hr : name ∈ x3d_names_reserved
  · simp only [hr, if_true]
    have hne : (pre ++ name).data ≠ [] := by
      rw [String.data_append]
      intro hc
      exact hdata (List.append_eq_nil.mp hc).2
    cases hds : (pre ++ name).data with
    | nil => exact absurd hds hne
    | cons c cs => simp
  · simp only [hr, if_false]
    cases hds : name.data with
    | nil => exact absurd hds hdata
    | cons c cs => simp

/-- Channels of a clamped colour lie in `[0, 1]`. -/
theorem clamp_color_unit (c : ℚ × ℚ × ℚ) : unitTriple (clamp_color c) := by
  unfold unitTriple clamp_color
  refine ⟨le_max_right _ _, ?_, le_max_right _ _, ?_, le_max_right _ _, ?_⟩ <;>
    exact max_le (min_le_right _ _) (by norm_num)

/-- C10: the primary sanitizer `clean_str` is partial in exactly one way —
on the empty input name it indexes the first character and fails (modelled
`none`), while every non-empty input returns normally (`isSome`). -/
theorem c10_clean_str_totality :
    (∀ pre, clean_str "" pre = none) ∧
    (∀ name pre, name ≠ "" → (clean_str name pre).isSome) := by
  constructor
  · intro pre
    have hmem : ("" ∈ x3d_names_reserved) = False := by
      simp only [eq_iff_iff, iff_false]
      decide
    unfold clean_str
    simp [hmem]
  · exact clean_str_isSome

/-- C10 witness: evaluated at the empty name and at a concrete name. -/
theorem c10_clean_str_totality_witness :
    clean_str "" "rsvd_" = none ∧ (clean_str "Cube" "rsvd_").isSome :=
  ⟨c10_clean_str_totality.1 "rsvd_", c10_clean_str_totality.2 "Cube" "rsvd_" (by decide)⟩

/-- C9 counterexample: on input name `"ab"` with counter 0, the counter value
appended to the name is 0, yet the too-short fallback returns `"_1"` — not
`"_0"` as the claim ("`_<counter>` where `<counter>` is the counter value
appended for that call") requires. -/
theorem c9_counterexample :
    secureName "ab" 0 = ("_1", 1) ∧ ("_1" : String) ≠ "_" ++ toString (0 : Nat) := by
  constructor
  · decide
  · decide

/-- C9 (amended): `secureName` appends the current process-wide counter to the
input name and increments the counter by one per call (so each call uses a
counter strictly greater than the previous call's), and for too-short inputs
(extended name of length ≤ 3) it returns the fallback `"_" ++ <counter + 1>`,
i.e. underscore followed by the *incremented* counter — one greater than the
value appended for that call. -/
theorem c9_secureName_amended (name : String) (n : Nat) :
    (secureName name n).2 = n + 1 ∧
    ((name ++ toString n).length ≤ 3 →
      (secureName name n).1 = "_" ++ toString (n + 1)) := by
  constructor
  · unfold secureName
    dsimp only
    split
    · rfl
    · split
      · rfl
      · split <;> rfl
  · intro h
    unfold secureName
    dsimp only
    rw [if_pos h]

/-- C9 witness: the amended statement evaluated at name `"ab"`, counter 0. -/
theorem c9_secureName_amended_witness :
    (secureName "ab" 0).2 = 0 + 1 ∧
    ("ab" ++ toString 0).length ≤ 3 ∧ (secureName "ab" 0).1 = "_" ++ toString (0 + 1) :=
  ⟨(c9_secureName_amended "ab" 0).1, by decide, (c9_secureName_amended "ab" 0).2 (by decide)⟩

/-- C4 counterexample: at `mat0` under `world0`, the emissive colour the code
computes differs from the claim's formula (which weights the world ambient
colour by the diffuse channel): the code weights it by the material's ambient
scalar times two instead. -/
theorem c4_counterexample :
    emissiveOf (writeMaterial mat0 "M" (some world0)).1 ≠
      some (claimEmissiveColor mat0 (some world0)) := by
  have h1 : emissiveOf (writeMaterial mat0 "M" (some world0)).1 =
      some (1/2, 1/2, 1/2) := by
    simp only [writeMaterial, mat0, world0, emissiveOf, clamp_color]
    norm_num
  have h2 : claimEmissiveColor mat0 (some world0) = (1/10, 1/10, 1/10) := by
    simp only [claimEmissiveColor, mat0, world0, clamp_color]
    norm_num
  rw [h1, h2]
  intro hc
  have := Option.some.inj hc
  simp only [Prod.mk.injEq] at this
  norm_num at this

/-- C4 (amended): for a not-yet-emitted, non-shadeless material,
`writeMaterial` emits a `DEF` whose fields are computed exactly as:
ambient = material.ambient/3; shininess = specularHardness/512;
transparency = 1 − alpha; specular per channel =
(channel+0.001)/(1.25/(specularIntensity+0.001)); emissive per channel =
((diffuseChannel·emit) + worldAmbientTerm)/2 where worldAmbientTerm is the
world's ambient channel × the material's ambient scalar × 2 when a world is
present and 0 otherwise; the three colour triples are clamped to [0,1] before
formatting (and clamped triples always lie in the unit interval). -/
theorem c4_writeMaterial_fields (mat : BMaterial) (material_id : String)
    (world : Option BWorld) (htag : mat.tag = false) (hsh : mat.use_shadeless = false) :
    writeMaterial mat material_id world =
      (MaterialOut.defn ("MA_" ++ material_id)
        { diffuseColor := clamp_color mat.diffuse_color
          specularColor := clamp_color
            ((mat.specular_color.1 + 0.001) / (1.25 / (mat.specular_intensity + 0.001)),
             (mat.specular_color.2.1 + 0.001) / (1.25 / (mat.specular_intensity + 0.001)),
             (mat.specular_color.2.2 + 0.001) / (1.25 / (mat.specular_intensity + 0.001)))
          emissiveColor := clamp_color
            (let ambiColor : ℚ × ℚ × ℚ :=
              match world with
              | some w =>
                ((w.ambient_color.1 * mat.ambient) * 2,
                 (w.ambient_color.2.1 * mat.ambient) * 2,
                 (w.ambient_color.2.2 * mat.ambient) * 2)
              | none => (0, 0, 0)
             ((mat.diffuse_color.1 * mat.emit + ambiColor.1) / 2,
              (mat.diffuse_color.2.1 * mat.emit + ambiColor.2.1) / 2,
              (mat.diffuse_color.2.2 * mat.emit + ambiColor.2.2) / 2))
          ambientIntensity := mat.ambient / 3
          shininess := mat.specular_hardness / 512
          transparency := 1 - mat.alpha },
       { mat with tag := true }) ∧
    (∀ c, unitTriple (clamp_color c)) := by
  refine ⟨?_, clamp_color_unit⟩
  simp only [writeMaterial, htag, hsh, Bool.false_eq_true, if_false]

/-- C4 witness: the amended statement evaluated at `mat1` under `world0`. -/
theorem c4_writeMaterial_fields_witness :
    mat1.tag = false ∧ mat1.use_shadeless = false ∧
    (writeMaterial mat1 "M" (some world0)).1 =
      MaterialOut.defn ("MA_" ++ "M")
        { diffuseColor := (1/2, 1/4, 1)
          specularColor := (167501/1250000, 167501/1250000, 167501/1250000)
          emissiveColor := (29/40, 53/80, 17/20)
          ambientIntensity := 1/5
          shininess := 1/4
          transparency := 1/4 } := by
  refine ⟨rfl, rfl, ?_⟩
  rw [(c4_writeMaterial_fields mat1 "M" (some world0) rfl rfl).1]
  simp only [mat1, world0, clamp_color, MaterialOut.defn.injEq, MaterialFields.mk.injEq,
    Prod.mk.injEq]
  norm_num

/-- C5: for a not-yet-emitted material whose shadeless flag is set, the
emitted appearance has ambientIntensity 1, shininess 0, and its specular and
emissive triples both equal the (clamped) diffuse triple. -/
theorem c5_shadeless_material (mat : BMaterial) (material_id : String)
    (world : Option BWorld) (htag : mat.tag = false) (hsh : mat.use_shadeless = true) :
    writeMaterial mat material_id world =
      (MaterialOut.defn ("MA_" ++ material_id)
        { diffuseColor := clamp_color mat.diffuse_color
          specularColor := clamp_color mat.diffuse_color
          emissiveColor := clamp_color mat.diffuse_color
          ambientIntensity := 1
          shininess := 0
          transparency := 1 - mat.alpha },
       { mat with tag := true }) := by
  simp only [writeMaterial, htag, hsh, if_true, Bool.false_eq_true, if_false]

/-- C5 witness: evaluated at the shadeless variant of `mat1`. -/
theorem c5_shadeless_material_witness :
    mat1shadeless.tag = false ∧ mat1shadeless.use_shadeless = true ∧
    (writeMaterial mat1shadeless "M" none).1 =
      MaterialOut.defn ("MA_" ++ "M")
        { diffuseColor := (1/2, 1/4, 1)
          specularColor := (1/2, 1/4, 1)
          emissiveColor := (1/2, 1/4, 1)
          ambientIntensity := 1
          shininess := 0
          transparency := 1/4 } := by
  refine ⟨rfl, rfl, ?_⟩
  rw [c5_shadeless_material mat1shadeless "M" none rfl rfl]
  simp only [mat1shadeless, mat1, clamp_color, MaterialOut.defn.injEq, MaterialFields.mk.injEq,
    Prod.mk.injEq]
  norm_num

/-- Once an image asset is tagged, every further emission is a `USE` of the
identifier recomputed from its name. -/
theorem imageEmitSeq_tagged (image_name idStr : String)
    (h : clean_str image_name "rsvd_" = some idStr) :
    ∀ n, imageEmitSeq image_name n true = List.replicate n (DefUse.useNode idStr) := by
  intro n
  induction n with
  | zero => rfl
  | succ m ih =>
    simp only [imageEmitSeq, writeImageTexture, h, if_true, List.replicate, ih]

/-- C6: within one export each cached asset is emitted as a full definition at
most once: the first emission writes the `DEF` and sets the asset's tag, and
every later emission writes a `USE` whose identifier — recomputed purely from
the asset's name — equals the identifier of the earlier `DEF`.  Stated for
the image writer (a sequence of `n + 1` emissions), the material writer
(first and second emission), and the mesh-level group of the mesh writer. -/
theorem c6_define_once_use_thereafter
    (image_name : String) (n : Nat) (himg : image_name ≠ "")
    (mat : BMaterial) (material_id : String) (world : Option BWorld) (hmat : mat.tag = false)
    (ob_name : String) (mesh : BMesh) (hob : ob_name ≠ "") (hmn : mesh.name ≠ "")
    (hfaces : mesh.faces_vertices ≠ []) (huv : mesh.uv_faces = []) (htag : mesh.tag = false) :
    (∃ idStr, clean_str image_name "rsvd_" = some idStr ∧
      imageEmitSeq image_name (n + 1) false =
        DefUse.defNode idStr :: List.replicate n (DefUse.useNode idStr)) ∧
    ((∃ f, writeMaterial mat material_id world =
        (MaterialOut.defn ("MA_" ++ material_id) f, { mat with tag := true })) ∧
      (writeMaterial { mat with tag := true } material_id world).1 =
        MaterialOut.use ("MA_" ++ material_id)) ∧
    (∃ mesh_id out out2,
      clean_str mesh.name "rsvd_" = some mesh_id ∧
      writeIndexedFaceSet ob_name mesh = some (out, true) ∧
      Node.groupOpen ("G_" ++ mesh_id) ∈ out ∧
      (∀ s, Node.groupUse s ∉ out) ∧
      writeIndexedFaceSet ob_name { mesh with tag := true } = some (out2, true) ∧
      Node.groupUse ("G_" ++ mesh_id) ∈ out2 ∧
      (∀ s, Node.groupOpen s ∉ out2)) := by
  refine ⟨?_, ⟨?_, ?_⟩, ?_⟩
  · obtain ⟨idStr, hid⟩ := Option.isSome_iff_exists.mp (clean_str_isSome image_name "rsvd_" himg)
    refine ⟨idStr, hid, ?_⟩
    simp only [imageEmitSeq, writeImageTexture, hid, if_false, Bool.false_eq_true,
      imageEmitSeq_tagged image_name idStr hid]
  · simp only [writeMaterial, hmat, Bool.false_eq_true, if_false]
    exact ⟨_, rfl⟩
  · simp only [writeMaterial, if_true]
  · obtain ⟨sn, hsn⟩ := Option.isSome_iff_exists.mp (clean_str_isSome ob_name "rsvd_" hob)
    obtain ⟨mid, hmid⟩ := Option.isSome_iff_exists.mp (clean_str_isSome mesh.name "rsvd_" hmn)
    refine ⟨mid,
      Node.transformOpen sn :: (Node.groupOpen ("G_" ++ mid) ::
        (emitted_face_groups mesh.n_materials mesh.faces_image.dedup
            (mesh.faces_material_index.zip mesh.faces_image)).map
          (fun g => Node.shape g.1.1 g.1.2) ++ [Node.groupClose]) ++ [Node.transformClose],
      [Node.transformOpen sn, Node.groupUse ("G_" ++ mid), Node.transformClose],
      hmid, ?_, ?_, ?_, ?_, ?_, ?_⟩
    · simp [writeIndexedFaceSet, hsn, hmid, hfaces, huv, htag]
    · simp
    · intro s
      simp
    · simp [writeIndexedFaceSet, hsn, hmid, hfaces, huv]
    · simp
    · intro s
      simp

/-- C6 witness: a doubly-emitted image, a doubly-emitted material and a
doubly-emitted mesh, at concrete inputs. -/
theorem c6_define_once_use_thereafter_witness :
    (∃ idStr, clean_str "Tex" "rsvd_" = some idStr ∧
      imageEmitSeq "Tex" (1 + 1) false =
        DefUse.defNode idStr :: List.replicate 1 (DefUse.useNode idStr)) ∧
    ((∃ f, writeMaterial mat1 "M" none =
        (MaterialOut.defn ("MA_" ++ "M") f, { mat1 with tag := true })) ∧
      (writeMaterial { mat1 with tag := true } "M" none).1 =
        MaterialOut.use ("MA_" ++ "M")) ∧
    (∃ mesh_id out out2,
      clean_str meshTwo.name "rsvd_" = some mesh_id ∧
      writeIndexedFaceSet "Object" meshTwo = some (out, true) ∧
      Node.groupOpen ("G_" ++ mesh_id) ∈ out ∧
      (∀ s, Node.groupUse s ∉ out) ∧
      writeIndexedFaceSet "Object" { meshTwo with tag := true } = some (out2, true) ∧
      Node.groupUse ("G_" ++ mesh_id) ∈ out2 ∧
      (∀ s, Node.groupOpen s ∉ out2)) :=
  c6_define_once_use_thereafter "Tex" 1 (by decide) mat1 "M" none rfl "Object" meshTwo
    (by decide) (by decide) (by decide) rfl rfl

/-- Folding boolean-or of a flag over a list starting from `b` is `b`
or-ed with `any`. -/
theorem foldl_or_eq_any (p : UVFaceFlags → Bool) (l : List UVFaceFlags) (b : Bool) :
    l.foldl (fun a f => a || p f) b = (b || l.any p) := by
  induction l generalizing b with
  | nil => simp
  | cons x xs ih => simp [List.any_cons, ih, Bool.or_assoc]

/-- The group part of the mesh writer contains no wrapper node, whichever
side of the mesh-tag check is taken. -/
theorem groupPart_no_wrapper (mesh : BMesh) (mid : String) :
    (if mesh.tag then [Node.groupUse ("G_" ++ mid)]
     else
       Node.groupOpen ("G_" ++ mid) ::
         (emitted_face_groups mesh.n_materials mesh.faces_image.dedup
             (mesh.faces_material_index.zip mesh.faces_image)).map
           (fun g => Node.shape g.1.1 g.1.2) ++ [Node.groupClose]).countP isWrapperNode = 0 := by
  by_cases h : mesh.tag <;>
    simp [h, isWrapperNode, List.countP_cons, List.countP_append, List.countP_map,
      List.countP_eq_zero, Function.comp]

/-- C8: a mesh with zero faces makes the mesh writer emit nothing at all and
return without error (its tag is not even touched), for any well-named
object/mesh pair. -/
theorem c8_empty_mesh_silent_skip (ob_name : String) (mesh : BMesh)
    (hob : ob_name ≠ "") (hmn : mesh.name ≠ "") (hf : mesh.faces_vertices = []) :
    writeIndexedFaceSet ob_name mesh = some ([], mesh.tag) := by
  obtain ⟨sn, hsn⟩ := Option.isSome_iff_exists.mp (clean_str_isSome ob_name "rsvd_" hob)
  obtain ⟨mid, hmid⟩ := Option.isSome_iff_exists.mp (clean_str_isSome mesh.name "rsvd_" hmn)
  simp [writeIndexedFaceSet, hsn, hmid, hf]

/-- C8 witness: the concrete faceless mesh. -/
theorem c8_empty_mesh_silent_skip_witness :
    writeIndexedFaceSet "Object" meshEmpty = some ([], meshEmpty.tag) :=
  c8_empty_mesh_silent_skip "Object" meshEmpty (by decide) (by decide) rfl

/-- C7: when any face of a (non-empty, well-named) mesh carries a wrapper
flag, exactly one wrapper node is emitted, wrapping the mesh's transform, and
it is selected with halo over billboard over collision precedence: any halo
flag — regardless of the other flags — yields a Billboard with axis of
rotation "0 0 0"; otherwise any billboard flag yields a Billboard with axis
"0 1 0"; otherwise any collision flag yields a Collision node.  In each case
the wrapper is the sole wrapper node of the emission (`countP` of the inner
part is 0) and it opens before the transform and closes after it. -/
theorem c7_wrapper_selection (ob_name : String) (mesh : BMesh)
    (hob : ob_name ≠ "") (hmn : mesh.name ≠ "") (hfaces : mesh.faces_vertices ≠ []) :
    ((∃ f ∈ mesh.uv_faces, f.use_halo = true) →
      ∃ sn inner, clean_str ob_name "rsvd_" = some sn ∧
        writeIndexedFaceSet ob_name mesh =
          some (Node.billboardOpen "0 0 0" :: Node.transformOpen sn :: inner
                  ++ [Node.transformClose, Node.billboardClose], true) ∧
        inner.countP isWrapperNode = 0) ∧
    ((∀ f ∈ mesh.uv_faces, f.use_halo = false) →
     (∃ f ∈ mesh.uv_faces, f.use_billboard = true) →
      ∃ sn inner, clean_str ob_name "rsvd_" = some sn ∧
        writeIndexedFaceSet ob_name mesh =
          some (Node.billboardOpen "0 1 0" :: Node.transformOpen sn :: inner
                  ++ [Node.transformClose, Node.billboardClose], true) ∧
        inner.countP isWrapperNode = 0) ∧
    ((∀ f ∈ mesh.uv_faces, f.use_halo = false) →
     (∀ f ∈ mesh.uv_faces, f.use_billboard = false) →
     (∃ f ∈ mesh.uv_faces, f.use_collision = true) →
      ∃ sn inner, clean_str ob_name "rsvd_" = some sn ∧
        writeIndexedFaceSet ob_name mesh =
          some (Node.collisionOpen :: Node.transformOpen sn :: inner
                  ++ [Node.transformClose, Node.collisionClose], true) ∧
        inner.countP isWrapperNode = 0) := by
  obtain ⟨sn, hsn⟩ := Option.isSome_iff_exists.mp (clean_str_isSome ob_name "rsvd_" hob)
  obtain ⟨mid, hmid⟩ := Option.isSome_iff_exists.mp (clean_str_isSome mesh.name "rsvd_" hmn)
  refine ⟨?_, ?_, ?_⟩
  · rintro ⟨f, hfm, hfh⟩
    have hh : mesh.uv_faces.foldl (fun a f => a || f.use_halo) false = true := by
      rw [foldl_or_eq_any]
      simp only [Bool.false_or, List.any_eq_true]
      exact ⟨f, hfm, hfh⟩
    refine ⟨sn, _, hsn, ?_, groupPart_no_wrapper mesh mid⟩
    simp [writeIndexedFaceSet, hsn, hmid, hfaces, hh]
  · intro hno hsome
    have hh : mesh.uv_faces.foldl (fun a f => a || f.use_halo) false = false := by
      rw [foldl_or_eq_any]
      simp only [Bool.false_or, List.any_eq_false]
      intro f hfm
      simp [hno f hfm]
    have hb : mesh.uv_faces.foldl (fun a f => a || f.use_billboard) false = true := by
      rw [foldl_or_eq_any]
      simp only [Bool.false_or, List.any_eq_true]
      obtain ⟨f, hfm, hfb⟩ := hsome
      exact ⟨f, hfm, hfb⟩
    refine ⟨sn, _, hsn, ?_, groupPart_no_wrapper mesh mid⟩
    simp [writeIndexedFaceSet, hsn, hmid, hfaces, hh, hb]
  · intro hno hnb hsome
    have hh : mesh.uv_faces.foldl (fun a f => a || f.use_halo) false = false := by
      rw [foldl_or_eq_any]
      simp only [Bool.false_or, List.any_eq_false]
      intro f hfm
      simp [hno f hfm]
    have hb : mesh.uv_faces.foldl (fun a f => a || f.use_billboard) false = false := by
      rw [foldl_or_eq_any]
      simp only [Bool.false_or, List.any_eq_false]
      intro f hfm
      simp [hnb f hfm]
    have hc : mesh.uv_faces.foldl (fun a f => a || f.use_collision) false = true := by
      rw [foldl_or_eq_any]
      simp only [Bool.false_or, List.any_eq_true]
      obtain ⟨f, hfm, hfc⟩ := hsome
      exact ⟨f, hfm, hfc⟩
    refine ⟨sn, _, hsn, ?_, groupPart_no_wrapper mesh mid⟩
    simp [writeIndexedFaceSet, hsn, hmid, hfaces, hh, hb, hc]

/-- C7 witness: a concrete quad mesh with one face flagged both halo and
collision is wrapped in a Billboard with axis of rotation "0 0 0". -/
theorem c7_wrapper_selection_witness :
    ∃ sn inner, clean_str "Object" "rsvd_" = some sn ∧
      writeIndexedFaceSet "Object" meshHalo =
        some (Node.billboardOpen "0 0 0" :: Node.transformOpen sn :: inner
                ++ [Node.transformClose, Node.billboardClose], true) ∧
      inner.countP isWrapperNode = 0 :=
  (c7_wrapper_selection "Object" meshHalo (by decide) (by decide) (by decide)).1
    ⟨{ use_halo := true, use_billboard := false, use_collision := true }, by decide, rfl⟩

/-! ### Grouping and sorting lemmas -/

/-- Populating the buckets appends, to any starting bucket content, exactly
the face indices whose key matches, in order. -/
theorem face_groups_build_eq (faces : List (Nat × Option String)) :
    ∀ (fg : Nat × Option String → List Nat) (i : Nat) (k : Nat × Option String),
      face_groups_build fg i faces k = fg k ++ bucketSpec k i faces := by
  induction faces with
  | nil =>
    intro fg i k
    simp [face_groups_build, bucketSpec]
  | cons f rest ih =>
    intro fg i k
    simp only [face_groups_build, bucketSpec]
    rw [ih]
    by_cases h : f = k
    · subst h
      simp [face_groups_insert, List.append_assoc]
    · have h2 : ¬(k = f) := fun hc => h hc.symm
      simp [face_groups_insert, h, h2]

/-- The populated bucket of key `k` is exactly the in-order list of face
indices keyed `k`. -/
theorem face_groups_fun_eq (faces : List (Nat × Option String)) (k : Nat × Option String) :
    face_groups_fun faces k = bucketSpec k 0 faces := by
  unfold face_groups_fun
  rw [face_groups_build_eq]
  rfl

/-- Membership in a bucket from offset `i`. -/
theorem mem_bucketSpec (k : Nat × Option String) (faces : List (Nat × Option String)) :
    ∀ (i m : Nat), m ∈ bucketSpec k i faces ↔
      ∃ j, j < faces.length ∧ m = i + j ∧ faces[j]? = some k := by
  induction faces with
  | nil =>
    intro i m
    simp [bucketSpec]
  | cons f rest ih =>
    intro i m
    simp only [bucketSpec, List.length_cons]
    by_cases h : f = k
    · rw [if_pos h]
      constructor
      · intro hm
        rcases List.mem_cons.mp hm with rfl | hm2
        · exact ⟨0, by omega, by omega, by simp [h]⟩
        · obtain ⟨j, hj, hmj, hget⟩ := (ih (i + 1) m).mp hm2
          exact ⟨j + 1, by omega, by omega, by simpa using hget⟩
      · rintro ⟨j, hj, rfl, hget⟩
        cases j with
        | zero => simp
        | succ j2 =>
          refine List.mem_cons.mpr (Or.inr ((ih (i + 1) _).mpr ⟨j2, by omega, by omega, ?_⟩))
          simpa using hget
    · rw [if_neg h]
      rw [ih (i + 1) m]
      constructor
      · rintro ⟨j, hj, rfl, hget⟩
        exact ⟨j + 1, by omega, by omega, by simpa using hget⟩
      · rintro ⟨j, hj, rfl, hget⟩
        cases j with
        | zero => exact absurd (Option.some.inj (by simpa using hget)) h
        | succ j2 => exact ⟨j2, by omega, by omega, by simpa using hget⟩

/-- Every member of a bucket built from offset `i` is at least `i`. -/
theorem bucketSpec_ge (k : Nat × Option String) (faces : List (Nat × Option String)) :
    ∀ i, ∀ m ∈ bucketSpec k i faces, i ≤ m := by
  induction faces with
  | nil => intro i m hm; simp [bucketSpec] at hm
  | cons f rest ih =>
    intro i m hm
    simp only [bucketSpec] at hm
    by_cases h : f = k
    · rw [if_pos h] at hm
      rcases List.mem_cons.mp hm with rfl | hm2
      · exact le_refl m
      · exact le_trans (by omega) (ih (i + 1) m hm2)
    · rw [if_neg h] at hm
      exact le_trans (by omega) (ih (i + 1) m hm)

/-- A bucket lists its face indices in strictly increasing (original) order. -/
theorem bucketSpec_pairwise (k : Nat × Option String) (faces : List (Nat × Option String)) :
    ∀ i, (bucketSpec k i faces).Pairwise (· < ·) := by
  induction faces with
  | nil => intro i; simp [bucketSpec]
  | cons f rest ih =>
    intro i
    simp only [bucketSpec]
    by_cases h : f = k
    · rw [if_pos h]
      refine List.pairwise_cons.mpr ⟨?_, ih (i + 1)⟩
      intro m hm
      exact lt_of_lt_of_le (by omega) (bucketSpec_ge k rest (i + 1) m hm)
    · rw [if_neg h]
      exact ih (i + 1)

/-- `pyInsert` permutes to consing. -/
theorem pyInsert_perm (le : α → α → Bool) (a : α) (l : List α) :
    (pyInsert le a l).Perm (a :: l) := by
  induction l with
  | nil => exact List.Perm.refl _
  | cons b t ih =>
    simp only [pyInsert]
    by_cases h : le b a
    · rw [if_pos h]
      exact (ih.cons b).trans (List.Perm.swap a b t)
    · rw [if_neg h]

/-- `pySort` permutes its input. -/
theorem pySort_perm (le : α → α → Bool) (l : List α) : (pySort le l).Perm l := by
  induction l with
  | nil => exact List.Perm.refl _
  | cons a t ih =>
    simp only [pySort, List.foldr_cons]
    exact (pyInsert_perm le a _).trans (ih.cons a)

/-- Inserting into a `le`-sorted list keeps it sorted, for a transitive and
total comparison. -/
theorem pyInsert_pairwise (le : α → α → Bool)
    (htrans : ∀ a b c, le a b = true → le b c = true → le a c = true)
    (htotal : ∀ a b, le a b = true ∨ le b a = true)
    (a : α) (l : List α) (hl : l.Pairwise (fun x y => le x y = true)) :
    (pyInsert le a l).Pairwise (fun x y => le x y = true) := by
  induction l with
  | nil => simp [pyInsert]
  | cons b t ih =>
    rcases List.pairwise_cons.mp hl with ⟨hb, ht⟩
    simp only [pyInsert]
    by_cases h : le b a
    · rw [if_pos h]
      refine List.pairwise_cons.mpr ⟨?_, ih ht⟩
      intro x hx
      rcases List.mem_cons.mp ((pyInsert_perm le a t).mem_iff.mp hx) with rfl | hxt
      · exact h
      · exact hb x hxt
    · rw [if_neg h]
      have hab : le a b = true := by
        rcases htotal a b with h1 | h1
        · exact h1
        · exact absurd h1 (by simpa using h)
      refine List.pairwise_cons.mpr ⟨?_, hl⟩
      intro x hx
      rcases List.mem_cons.mp hx with rfl | hxt
      · exact hab
      · exact htrans a b x hab (hb x hxt)

/-- `pySort` sorts, for a transitive and total comparison. -/
theorem pySort_pairwise (le : α → α → Bool)
    (htrans : ∀ a b c, le a b = true → le b c = true → le a c = true)
    (htotal : ∀ a b, le a b = true ∨ le b a = true)
    (l : List α) : (pySort le l).Pairwise (fun x y => le x y = true) := by
  induction l with
  | nil => simp [pySort]
  | cons a t ih =>
    simp only [pySort, List.foldr_cons]
    exact pyInsert_pairwise le htrans htotal a _ ih

/-- `strLTb` is irreflexive. -/
theorem strLTb_irrefl : ∀ a : List Char, strLTb a a = false := by
  intro a
  induction a with
  | nil => rfl
  | cons x xs ih =>
    show (if x.toNat < x.toNat then true
          else if x.toNat < x.toNat then false else strLTb xs xs) = false
    rw [if_neg (lt_irrefl _), if_neg (lt_irrefl _)]
    exact ih

/-- `strLTb` is transitive. -/
theorem strLTb_trans :
    ∀ (a b c : List Char), strLTb a b = true → strLTb b c = true → strLTb a c = true := by
  intro a
  induction a with
  | nil =>
    intro b c hab hbc
    cases b with
    | nil => simp [strLTb] at hab
    | cons y ys =>
      cases c with
      | nil => simp [strLTb] at hbc
      | cons z zs => simp [strLTb]
  | cons x xs ih =>
    intro b c hab hbc
    cases b with
    | nil => simp [strLTb] at hab
    | cons y ys =>
      cases c with
      | nil => simp [strLTb] at hbc
      | cons z zs =>
        simp only [strLTb] at hab hbc ⊢
        by_cases h1 : x.toNat < y.toNat
        · by_cases h2 : y.toNat < z.toNat
          · rw [if_pos (by omega)]
          · by_cases h3 : z.toNat < y.toNat
            · simp [h2, h3] at hbc
            · rw [if_pos (by omega)]
        · by_cases h4 : y.toNat < x.toNat
          · simp [h1, h4] at hab
          · by_cases h2 : y.toNat < z.toNat
            · rw [if_pos (by omega)]
            · by_cases h3 : z.toNat < y.toNat
              · simp [h2, h3] at hbc
              · rw [if_neg (by omega), if_neg (by omega)]
                simp only [h1, h4, if_false] at hab
                simp only [h2, h3, if_false] at hbc
                exact ih ys zs hab hbc

/-- Two mutually non-less character lists are equal. -/
theorem strLTb_connected :
    ∀ (a b : List Char), strLTb a b = false → strLTb b a = false → a = b := by
  intro a
  induction a with
  | nil =>
    intro b h1 _
    cases b with
    | nil => rfl
    | cons y ys => simp [strLTb] at h1
  | cons x xs ih =>
    intro b h1 h2
    cases b with
    | nil => simp [strLTb] at h2
    | cons y ys =>
      simp only [strLTb] at h1 h2
      by_cases hxy : x.toNat < y.toNat
      · simp [hxy] at h1
      · by_cases hyx : y.toNat < x.toNat
        · simp [hyx] at h2
        · have hx : x = y := by
            have h5 : x.toNat = y.toNat := by omega
            exact Char.ext (UInt32.ext h5)
          subst hx
          simp only [hxy, hyx, if_false] at h1 h2
          rw [ih ys h1 h2]

/-- `pyStrLE` is total. -/
theorem pyStrLE_total (a b : String) : pyStrLE a b = true ∨ pyStrLE b a = true := by
  unfold pyStrLE
  by_cases h : strLTb b.data a.data = true
  · right
    simp only [Bool.not_eq_true']
    by_contra hc
    simp only [Bool.not_eq_false] at hc
    exact absurd (strLTb_trans _ _ _ h hc) (by simp [strLTb_irrefl])
  · left
    simp only [Bool.not_eq_true] at h
    simp [h]

/-- `pyStrLE` is transitive. -/
theorem pyStrLE_trans (a b c : String) (h1 : pyStrLE a b = true) (h2 : pyStrLE b c = true) :
    pyStrLE a c = true := by
  unfold pyStrLE at *
  simp only [Bool.not_eq_true'] at h1 h2 ⊢
  by_contra hc
  simp only [Bool.not_eq_false] at hc
  by_cases hbc : strLTb b.data c.data = true
  · have := strLTb_trans _ _ _ hbc hc
    simp_all
  · simp only [Bool.not_eq_true] at hbc
    have heq : b.data = c.data := strLTb_connected _ _ hbc h2
    rw [← heq] at hc
    simp_all

/-- The empty string compares `≤` everything: "no image" sorts first. -/
theorem pyStrLE_empty (s : String) : pyStrLE "" s = true := by
  unfold pyStrLE
  cases h : s.data with
  | nil => simp [h, strLTb]
  | cons c cs => simp [h, strLTb]

/-- The bucket-item comparison is transitive. -/
theorem groupLE_trans (a b c : (Nat × Option String) × List Nat)
    (h1 : groupLE a b = true) (h2 : groupLE b c = true) : groupLE a c = true := by
  unfold groupLE at *
  simp only [Bool.or_eq_true, Bool.and_eq_true, decide_eq_true_eq] at h1 h2 ⊢
  rcases h1 with h1 | ⟨h1e, h1s⟩ <;> rcases h2 with h2 | ⟨h2e, h2s⟩
  · left; omega
  · left; omega
  · left; omega
  · right; exact ⟨by omega, pyStrLE_trans _ _ _ h1s h2s⟩

/-- The bucket-item comparison is total. -/
theorem groupLE_total (a b : (Nat × Option String) × List Nat) :
    groupLE a b = true ∨ groupLE b a = true := by
  unfold groupLE
  simp only [Bool.or_eq_true, Bool.and_eq_true, decide_eq_true_eq]
  rcases Nat.lt_trichotomy a.1.1 b.1.1 with h | h | h
  · exact Or.inl (Or.inl h)
  · rcases pyStrLE_total (imgName a.1.2) (imgName b.1.2) with hs | hs
    · exact Or.inl (Or.inr ⟨h, hs⟩)
    · exact Or.inr (Or.inr ⟨h.symm, hs⟩)
  · exact Or.inr (Or.inl h)

/-- Membership in a populated bucket is exactly "this face has this key". -/
theorem mem_face_groups_fun (faces : List (Nat × Option String))
    (k : Nat × Option String) (m : Nat) :
    m ∈ face_groups_fun faces k ↔ faces[m]? = some k := by
  rw [face_groups_fun_eq, mem_bucketSpec]
  constructor
  · rintro ⟨j, hj, rfl, hget⟩
    simpa using hget
  · intro h
    have hm : m < faces.length := by
      rcases List.getElem?_eq_some.mp h with ⟨hlt, _⟩
      exact hlt
    exact ⟨m, hm, by omega, h⟩

/-- The pre-created bucket keys are pairwise distinct when the unique-image
list is. -/
theorem face_groups_keys_nodup (nmat : Nat) (uniq : List (Option String))
    (h : uniq.Nodup) : (face_groups_keys nmat uniq).Nodup := by
  have : face_groups_keys nmat uniq = (List.range nmat) ×ˢ uniq := rfl
  rw [this]
  exact List.Nodup.product (List.nodup_range nmat) h

/-- Key membership in the pre-created keys. -/
theorem mem_face_groups_keys (nmat : Nat) (uniq : List (Option String))
    (k : Nat × Option String) :
    k ∈ face_groups_keys nmat uniq ↔ k.1 < nmat ∧ k.2 ∈ uniq := by
  have : face_groups_keys nmat uniq = (List.range nmat) ×ˢ uniq := rfl
  rw [this]
  cases k with
  | mk a b => rw [List.mem_product, List.mem_range]

/-- In a duplicate-free list containing `a`, exactly one element equals `a`. -/
theorem countP_eq_one_of_nodup_mem {α : Type} [DecidableEq α] {l : List α} {a : α}
    (hn : l.Nodup) (ha : a ∈ l) : l.countP (fun x => decide (x = a)) = 1 := by
  induction l with
  | nil => simp at ha
  | cons b t ih =>
    rw [List.countP_cons]
    rcases List.pairwise_cons.mp hn with ⟨hb, ht⟩
    rcases List.mem_cons.mp ha with rfl | hat
    · have h0 : t.countP (fun x => decide (x = a)) = 0 :=
        List.countP_eq_zero.mpr (fun x hx => by
          simp only [decide_eq_true_eq]
          exact fun hc => (hb x hx) hc.symm)
      simp [h0]
    · have hba : ¬(b = a) := hb a hat
      have hone := ih ht hat
      simp [hone, hba]

/-- C2: for every mesh (any material-index list within range and any resolved
per-face image list), the emitted face groups partition the faces: every
emitted group is non-empty (zero-face buckets emit no Shape), the union of
the emitted groups' face lists is exactly the set of face indices, each face
index lies in exactly one emitted group, and each group lists its faces in
strictly increasing original order. -/
theorem c2_face_groups_partition (nmat : Nat) (faces : List (Nat × Option String))
    (hmat : ∀ f ∈ faces, f.1 < nmat) :
    (∀ g ∈ emitted_face_groups nmat (faces.map Prod.snd).dedup faces, g.2 ≠ []) ∧
    (∀ i, i ∈ ((emitted_face_groups nmat (faces.map Prod.snd).dedup faces).map Prod.snd).flatten
        ↔ i < faces.length) ∧
    (∀ i, i < faces.length →
      ((emitted_face_groups nmat (faces.map Prod.snd).dedup faces).filter
        (fun g => decide (i ∈ g.2))).length = 1) ∧
    (∀ g ∈ emitted_face_groups nmat (faces.map Prod.snd).dedup faces, g.2.Pairwise (· < ·)) := by
  set uniq := (faces.map Prod.snd).dedup with huniq
  have hcount : ∀ i, i < faces.length →
      ((emitted_face_groups nmat uniq faces).filter (fun g => decide (i ∈ g.2))).length = 1 := by
    intro i hi
    have hki : faces[i]? = some faces[i] := List.getElem?_eq_getElem hi
    rw [← List.countP_eq_length_filter]
    unfold emitted_face_groups face_groups_items
    rw [List.countP_filter, (pySort_perm groupLE _).countP_eq, List.countP_map]
    have hstep : List.countP
        ((fun g => decide (i ∈ g.2) && !g.2.isEmpty) ∘ fun k => (k, face_groups_fun faces k))
        (face_groups_keys nmat uniq) =
        List.countP (fun k => decide (k = faces[i])) (face_groups_keys nmat uniq) := by
      apply List.countP_congr
      intro k _
      simp only [Function.comp_apply, Bool.and_eq_true, decide_eq_true_eq,
        Bool.not_eq_true', List.isEmpty_eq_false, ne_eq]
      constructor
      · rintro ⟨hmem, _⟩
        have := (mem_face_groups_fun faces k i).mp hmem
        rw [hki] at this
        exact (Option.some.inj this).symm
      · rintro rfl
        have hmem := (mem_face_groups_fun faces _ i).mpr hki
        exact ⟨hmem, fun hc => by simp [hc] at hmem⟩
    rw [hstep]
    have hnodup : (face_groups_keys nmat uniq).Nodup :=
      face_groups_keys_nodup nmat uniq (List.nodup_dedup _)
    have hmem : faces[i] ∈ face_groups_keys nmat uniq := by
      rw [mem_face_groups_keys]
      refine ⟨hmat faces[i] (List.getElem_mem hi), ?_⟩
      rw [huniq, List.mem_dedup]
      exact List.mem_map.mpr ⟨faces[i], List.getElem_mem hi, rfl⟩
    exact countP_eq_one_of_nodup_mem hnodup hmem
  have hmemgroups : ∀ g ∈ emitted_face_groups nmat uniq faces,
      ∃ k, g = (k, face_groups_fun faces k) := by
    intro g hg
    have hg2 : g ∈ face_groups_items nmat uniq faces := List.mem_of_mem_filter hg
    unfold face_groups_items at hg2
    have hg3 := (pySort_perm groupLE _).mem_iff.mp hg2
    obtain ⟨k, _, hk⟩ := List.mem_map.mp hg3
    exact ⟨k, hk.symm⟩
  refine ⟨?_, ?_, hcount, ?_⟩
  · intro g hg
    have := List.mem_filter.mp hg
    simpa [List.isEmpty_eq_false] using this.2
  · intro i
    constructor
    · intro hmem
      obtain ⟨l, hl, hil⟩ := List.mem_flatten.mp hmem
      obtain ⟨g, hg, rfl⟩ := List.mem_map.mp hl
      obtain ⟨k, rfl⟩ := hmemgroups g hg
      have := (mem_face_groups_fun faces k i).mp hil
      rcases List.getElem?_eq_some.mp this with ⟨hlt, _⟩
      exact hlt
    · intro hi
      have h1 := hcount i hi
      have hpos : 0 < ((emitted_face_groups nmat uniq faces).filter
          (fun g => decide (i ∈ g.2))).length := by omega
      rw [← List.countP_eq_length_filter] at hpos
      obtain ⟨g, hg, hgi⟩ := List.countP_pos_iff.mp hpos
      simp only [decide_eq_true_eq] at hgi
      exact List.mem_flatten.mpr ⟨g.2, List.mem_map.mpr ⟨g, hg, rfl⟩, hgi⟩
  · intro g hg
    obtain ⟨k, rfl⟩ := hmemgroups g hg
    simp only
    rw [face_groups_fun_eq]
    exact bucketSpec_pairwise k faces 0

/-- C2 witness: a two-material, two-face mesh with one imaged face. -/
theorem c2_face_groups_partition_witness :
    (∀ g ∈ emitted_face_groups 2
        (([(1, some "imgA"), (0, none)] : List (Nat × Option String)).map Prod.snd).dedup
        [(1, some "imgA"), (0, none)], g.2 ≠ []) ∧
    (∀ i, i ∈ ((emitted_face_groups 2
        (([(1, some "imgA"), (0, none)] : List (Nat × Option String)).map Prod.snd).dedup
        [(1, some "imgA"), (0, none)]).map Prod.snd).flatten
      ↔ i < ([(1, some "imgA"), (0, none)] : List (Nat × Option String)).length) ∧
    (∀ i, i < ([(1, some "imgA"), (0, none)] : List (Nat × Option String)).length →
      ((emitted_face_groups 2
        (([(1, some "imgA"), (0, none)] : List (Nat × Option String)).map Prod.snd).dedup
        [(1, some "imgA"), (0, none)]).filter (fun g => decide (i ∈ g.2))).length = 1) ∧
    (∀ g ∈ emitted_face_groups 2
        (([(1, some "imgA"), (0, none)] : List (Nat × Option String)).map Prod.snd).dedup
        [(1, some "imgA"), (0, none)], g.2.Pairwise (· < ·)) :=
  c2_face_groups_partition 2 [(1, some "imgA"), (0, none)] (by decide)

/-- C3: the face groups are emitted in the order obtained by sorting the
buckets by material index ascending, ties broken by image name ascending
(`pyStrLE`, with `imgName none = ""` and the empty string first), empty
buckets are skipped, and the emitted sequence is a permutation of the
non-empty buckets — a pure function of the input, so identical across
repeated exports. -/
theorem c3_face_groups_order (nmat : Nat) (faces : List (Nat × Option String)) :
    ((face_groups_items nmat (faces.map Prod.snd).dedup faces).Pairwise
      (fun a b => a.1.1 < b.1.1 ∨ (a.1.1 = b.1.1 ∧
        pyStrLE (imgName a.1.2) (imgName b.1.2) = true))) ∧
    ((emitted_face_groups nmat (faces.map Prod.snd).dedup faces).Pairwise
      (fun a b => a.1.1 < b.1.1 ∨ (a.1.1 = b.1.1 ∧
        pyStrLE (imgName a.1.2) (imgName b.1.2) = true))) ∧
    (∀ g ∈ emitted_face_groups nmat (faces.map Prod.snd).dedup faces, g.2 ≠ []) ∧
    imgName none = "" ∧
    (∀ s, pyStrLE "" s = true) ∧
    (emitted_face_groups nmat (faces.map Prod.snd).dedup faces).Perm
      (((face_groups_keys nmat (faces.map Prod.snd).dedup).map
          (fun k => (k, face_groups_fun faces k))).filter (fun g => !g.2.isEmpty)) := by
  have hsorted : (face_groups_items nmat (faces.map Prod.snd).dedup faces).Pairwise
      (fun a b => a.1.1 < b.1.1 ∨ (a.1.1 = b.1.1 ∧
        pyStrLE (imgName a.1.2) (imgName b.1.2) = true)) := by
    unfold face_groups_items
    refine List.Pairwise.imp ?_ (pySort_pairwise groupLE groupLE_trans groupLE_total _)
    intro a b h
    unfold groupLE at h
    simpa using h
  refine ⟨hsorted, List.Pairwise.filter _ hsorted, ?_, rfl, pyStrLE_empty, ?_⟩
  · intro g hg
    have := List.mem_filter.mp hg
    simpa [List.isEmpty_eq_false] using this.2
  · exact List.Perm.filter _ (pySort_perm groupLE _)

/-! ### Welding lemmas (full-triangulation mode) -/

/-- `WExt` is reflexive. -/
theorem WExt_refl {K : Type} [DecidableEq K] (st : WeldState K) : WExt st st :=
  fun _ _ _ h => h

/-- `WExt` is transitive. -/
theorem WExt_trans {K : Type} [DecidableEq K] {a b c : WeldState K}
    (h1 : WExt a b) (h2 : WExt b c) : WExt a c :=
  fun v k e h => h2 v k e (h1 v k e h)

/-- The fresh per-group state satisfies the invariant. -/
theorem WInv_init (K : Type) : WInv (initWeld K) := by
  refine ⟨?_, ?_, ?_, ?_, ?_⟩
  · intro v e he
    simp [initWeld] at he
  · intro v
    simp [initWeld]
  · intro v e he
    simp [initWeld] at he
  · intro e he
    simp [initWeld] at he
  · intro n h
    simp [initWeld] at h

/-- Specification of one corner's welding step: the invariant is preserved,
old bindings persist, and the returned record is bound to `(v, k)` in the
resulting state, carries key `k` and original vertex `v`. -/
theorem weldCorner_spec {K : Type} [DecidableEq K] (k : K) (v : Nat) (st : WeldState K)
    (hinv : WInv st) :
    WInv (weldCorner k v st).1 ∧ WExt st (weldCorner k v st).1 ∧
    findKey ((weldCorner k v st).1.vertex_hash v) k = some (weldCorner k v st).2 ∧
    (weldCorner k v st).2.1 = k ∧ (weldCorner k v st).2.2.1 = v := by
  obtain ⟨inv1, inv2, inv3, inv4, inv5⟩ := hinv
  cases hf : findKey (st.vertex_hash v) k with
  | some e =>
    have hmem : e ∈ st.vertex_hash v := List.mem_of_find?_eq_some hf
    have hek : e.1 = k := by
      have := List.find?_some hf
      simpa using this
    have hres : weldCorner k v st = (st, e) := by
      simp only [weldCorner, hf]
    rw [hres]
    exact ⟨⟨inv1, inv2, inv3, inv4, inv5⟩, fun _ _ _ h => h, hf, hek, inv1 v e hmem⟩
  | none =>
    have hfnone : ∀ x ∈ st.vertex_hash v, ¬(x.1 = k) := by
      intro x hx
      have := List.find?_eq_none.mp hf x hx
      simpa using this
    have hres : weldCorner k v st =
        (⟨fun v2 => if v2 = v then (k, v, st.vert_tri_list.length) :: st.vertex_hash v2
            else st.vertex_hash v2,
          st.vert_tri_list ++ [(k, v, st.vert_tri_list.length)]⟩,
         (k, v, st.vert_tri_list.length)) := by
      simp only [weldCorner, hf]
    rw [hres]
    refine ⟨⟨?_, ?_, ?_, ?_, ?_⟩, ?_, ?_, rfl, rfl⟩
    · intro v2 e2 he2
      dsimp only at he2
      by_cases hv : v2 = v
      · subst hv
        rw [if_pos rfl] at he2
        rcases List.mem_cons.mp he2 with rfl | hold
        · rfl
        · exact inv1 v2 e2 hold
      · rw [if_neg hv] at he2
        exact inv1 v2 e2 he2
    · intro v2
      dsimp only
      by_cases hv : v2 = v
      · subst hv
        rw [if_pos rfl]
        refine List.pairwise_cons.mpr ⟨?_, inv2 v2⟩
        intro b hb hc
        exact hfnone b hb hc.symm
      · rw [if_neg hv]
        exact inv2 v2
    · intro v2 e2 he2
      dsimp only at he2 ⊢
      by_cases hv : v2 = v
      · subst hv
        rw [if_pos rfl] at he2
        rcases List.mem_cons.mp he2 with rfl | hold
        · exact List.mem_append.mpr (Or.inr (List.mem_singleton.mpr rfl))
        · exact List.mem_append.mpr (Or.inl (inv3 v2 e2 hold))
      · rw [if_neg hv] at he2
        exact List.mem_append.mpr (Or.inl (inv3 v2 e2 he2))
    · intro e2 he2
      dsimp only at he2 ⊢
      rcases List.mem_append.mp he2 with hold | hnew
      · have := inv4 e2 hold
        by_cases hv : e2.2.1 = v
        · rw [hv, if_pos rfl]
          exact List.mem_cons.mpr (Or.inr (hv ▸ this))
        · rw [if_neg hv]
          exact this
      · have he : e2 = (k, v, st.vert_tri_list.length) := List.mem_singleton.mp hnew
        subst he
        rw [if_pos rfl]
        exact List.mem_cons.mpr (Or.inl rfl)
    · intro n h
      dsimp only at h ⊢
      by_cases hn : n < st.vert_tri_list.length
      · rw [List.getElem_append_left hn]
        exact inv5 n hn
      · have hlen : n = st.vert_tri_list.length := by
          simp only [List.length_append, List.length_singleton] at h
          omega
        subst hlen
        rw [List.getElem_append_right (le_refl _)]
        simp
    · intro v2 k2 e2 h2
      dsimp only
      by_cases hv : v2 = v
      · subst hv
        rw [if_pos rfl]
        by_cases hk : k2 = k
        · subst hk
          rw [h2] at hf
          exact absurd hf (by simp)
        · unfold findKey at h2 ⊢
          rw [List.find?_cons_of_neg _ (by simpa using fun hc : k = k2 => hk hc.symm)]
          exact h2
      · rw [if_neg hv]
        exact h2
    · dsimp only
      rw [if_pos rfl]
      unfold findKey
      rw [List.find?_cons_of_pos _ (by simp)]

/-- Specification of the corner loop: invariant preserved, bindings persist,
one output record per corner, each bound in the resulting state under its
corner's key and original vertex. -/
theorem processCornersAux_spec {K : Type} [DecidableEq K] (key : Nat → Nat → K) (i : Nat) :
    ∀ (fv : List Nat) (j : Nat) (st : WeldState K), WInv st →
      WInv (processCornersAux key i j fv st).1 ∧
      WExt st (processCornersAux key i j fv st).1 ∧
      (processCornersAux key i j fv st).2.length = fv.length ∧
      (∀ jj, jj < fv.length →
        ∃ e, (processCornersAux key i j fv st).2[jj]? = some e ∧
          findKey ((processCornersAux key i j fv st).1.vertex_hash (fv.getD jj 0))
            (key i (j + jj)) = some e ∧
          e.1 = key i (j + jj) ∧ e.2.1 = fv.getD jj 0) := by
  intro fv
  induction fv with
  | nil =>
    intro j st hinv
    exact ⟨hinv, WExt_refl st, rfl, fun jj hjj => absurd hjj (by simp)⟩
  | cons v rest ih =>
    intro j st hinv
    obtain ⟨hinv1, hext1, hfind1, hk1, hv1⟩ := weldCorner_spec (key i j) v st hinv
    obtain ⟨hinv2, hext2, hlen2, hcorners2⟩ :=
      ih (j + 1) (weldCorner (key i j) v st).1 hinv1
    simp only [processCornersAux]
    refine ⟨hinv2, WExt_trans hext1 hext2, by simp [hlen2], ?_⟩
    intro jj hjj
    cases jj with
    | zero =>
      refine ⟨(weldCorner (key i j) v st).2, by simp, ?_, ?_, ?_⟩
      · simpa using hext2 v (key i j) (weldCorner (key i j) v st).2 hfind1
      · simpa using hk1
      · simpa using hv1
    | succ jj2 =>
      have hjj2 : jj2 < rest.length := by simpa using hjj
      obtain ⟨e, hget, hfind, hek, hev⟩ := hcorners2 jj2 hjj2
      refine ⟨e, by simpa using hget, ?_, ?_, ?_⟩
      · rw [show j + (jj2 + 1) = j + 1 + jj2 from by omega]
        simpa using hfind
      · rw [show j + (jj2 + 1) = j + 1 + jj2 from by omega]
        exact hek
      · simpa using hev

/-- If every corner's record is bound in a state, resolving the corners in
that state recovers exactly the per-corner record list. -/
theorem cornerOutsAux_eq {K : Type} [DecidableEq K] (st2 : WeldState K) (key : Nat → Nat → K)
    (i : Nat) :
    ∀ (fv : List Nat) (j : Nat) (outs : List (K × Nat × Nat)),
      outs.length = fv.length →
      (∀ jj, jj < fv.length →
        ∃ e, outs[jj]? = some e ∧
          findKey (st2.vertex_hash (fv.getD jj 0)) (key i (j + jj)) = some e) →
      cornerOutsAux st2 key i j fv = outs := by
  intro fv
  induction fv with
  | nil =>
    intro j outs hlen _
    simp only [cornerOutsAux]
    exact (List.length_eq_zero.mp hlen).symm
  | cons v rest ih =>
    intro j outs hlen hb
    cases outs with
    | nil => simp at hlen
    | cons e0 outsrest =>
      obtain ⟨e, he0, hfind⟩ := hb 0 (by simp)
      have hee : e = e0 := by
        simp only [List.getElem?_cons_zero] at he0
        exact (Option.some.inj he0).symm
      subst hee
      simp only [List.getD_cons_zero, Nat.add_zero] at hfind
      simp only [cornerOutsAux, hfind]
      refine congrArg _ (ih (j + 1) outsrest (by simpa using hlen) ?_)
      intro jj hjj
      obtain ⟨e2, hget, hfind2⟩ := hb (jj + 1) (by simpa using hjj)
      refine ⟨e2, by simpa using hget, ?_⟩
      rw [show j + 1 + jj = j + (jj + 1) from by omega]
      simpa using hfind2

/-- Specification of the face loop: invariant and persistence, the triangle
list is the per-face fan blocks over the corners as resolved in the final
state, and every processed face has one bound record per corner. -/
theorem weldGroupAux_spec {K : Type} [DecidableEq K] (key : Nat → Nat → K)
    (mfv : List (List Nat)) :
    ∀ (fg : List Nat) (st : WeldState K), WInv st →
      WInv (weldGroupAux key mfv fg st).1 ∧
      WExt st (weldGroupAux key mfv fg st).1 ∧
      (weldGroupAux key mfv fg st).2 =
        (fg.map (fun i =>
          faceTris (cornerOuts (weldGroupAux key mfv fg st).1 key mfv i))).flatten ∧
      (∀ i ∈ fg, (cornerOuts (weldGroupAux key mfv fg st).1 key mfv i).length =
        (mfv.getD i []).length) ∧
      (∀ i ∈ fg, ∀ jj, jj < (mfv.getD i []).length →
        ∃ e, findKey ((weldGroupAux key mfv fg st).1.vertex_hash ((mfv.getD i []).getD jj 0))
            (key i jj) = some e ∧ e.1 = key i jj ∧ e.2.1 = (mfv.getD i []).getD jj 0) := by
  intro fg
  induction fg with
  | nil =>
    intro st hinv
    refine ⟨hinv, WExt_refl st, rfl, ?_, ?_⟩ <;> intro i hi <;> simp at hi
  | cons i rest ih =>
    intro st hinv
    obtain ⟨hinv1, hext1, hlen1, hcorners1⟩ :=
      processCornersAux_spec key i (mfv.getD i []) 0 st hinv
    obtain ⟨hinv2, hext2, htris2, hlens2, hbind2⟩ :=
      ih (processCornersAux key i 0 (mfv.getD i []) st).1 hinv1
    have hstep : weldGroupAux key mfv (i :: rest) st =
        ((weldGroupAux key mfv rest (processCornersAux key i 0 (mfv.getD i []) st).1).1,
         faceTris (processCornersAux key i 0 (mfv.getD i []) st).2 ++
           (weldGroupAux key mfv rest (processCornersAux key i 0 (mfv.getD i []) st).1).2) := rfl
    rw [hstep]
    have hpers : ∀ jj, jj < (mfv.getD i []).length →
        ∃ e, (processCornersAux key i 0 (mfv.getD i []) st).2[jj]? = some e ∧
          findKey ((weldGroupAux key mfv rest
              (processCornersAux key i 0 (mfv.getD i []) st).1).1.vertex_hash
            ((mfv.getD i []).getD jj 0)) (key i jj) = some e ∧
          e.1 = key i jj ∧ e.2.1 = (mfv.getD i []).getD jj 0 := by
      intro jj hjj
      obtain ⟨e, hget, hfind, hek, hev⟩ := hcorners1 jj hjj
      rw [Nat.zero_add] at hfind hek
      exact ⟨e, hget, hext2 _ _ _ hfind, hek, hev⟩
    have hco : cornerOuts (weldGroupAux key mfv rest
          (processCornersAux key i 0 (mfv.getD i []) st).1).1 key mfv i =
        (processCornersAux key i 0 (mfv.getD i []) st).2 := by
      unfold cornerOuts
      refine cornerOutsAux_eq _ key i (mfv.getD i []) 0 _ hlen1 ?_
      intro jj hjj
      obtain ⟨e, hget, hfind, _, _⟩ := hpers jj hjj
      refine ⟨e, hget, ?_⟩
      rw [Nat.zero_add]
      exact hfind
    refine ⟨hinv2, WExt_trans hext1 hext2, ?_, ?_, ?_⟩
    · simp only [List.map_cons, List.flatten_cons, hco]
      exact congrArg _ htris2
    · intro i2 hi2
      rcases List.mem_cons.mp hi2 with rfl | hir
      · rw [hco]
        exact hlen1
      · exact hlens2 i2 hir
    · intro i2 hi2 jj hjj
      rcases List.mem_cons.mp hi2 with rfl | hir
      · obtain ⟨e, _, hfind, hek, hev⟩ := hpers jj hjj
        exact ⟨e, hfind, hek, hev⟩
      · exact hbind2 i2 hir jj hjj

/-- In a bucket with pairwise distinct keys, an entry is determined by its
key. -/
theorem pairwise_keys_eq {K : Type} {l : List (K × Nat × Nat)}
    (hp : l.Pairwise (fun a b => a.1 ≠ b.1)) :
    ∀ a ∈ l, ∀ b ∈ l, a.1 = b.1 → a = b := by
  induction l with
  | nil => simp
  | cons x t ih =>
    rcases List.pairwise_cons.mp hp with ⟨hx, ht⟩
    intro a ha b hb hab
    rcases List.mem_cons.mp ha with rfl | hat <;> rcases List.mem_cons.mp hb with rfl | hbt
    · rfl
    · exact absurd hab (hx b hbt)
    · exact absurd hab.symm (hx a hat)
    · exact ih ht a hat b hbt hab

/-- Under the invariant, a record of `vert_tri_list` sits at the position its
third component announces. -/
theorem WInv_entry_at_own_index {K : Type} {st : WeldState K} (hinv : WInv st)
    {e : K × Nat × Nat} (he : e ∈ st.vert_tri_list) :
    ∃ h2 : e.2.2 < st.vert_tri_list.length, st.vert_tri_list[e.2.2] = e := by
  obtain ⟨n, hn, hget⟩ := List.mem_iff_getElem.mp he
  obtain ⟨_, _, _, _, inv5⟩ := hinv
  have h22 : e.2.2 = n := by
    rw [← hget]
    exact inv5 n hn
  subst h22
  exact ⟨hn, hget⟩

/-- The fan split of a 4-record corner list. -/
theorem faceTris_of_length_four {K : Type} (cs : List (K × Nat × Nat)) (h : cs.length = 4) :
    faceTris cs =
      [((cs.map (fun e => e.2.2)).getD 0 0, (cs.map (fun e => e.2.2)).getD 1 0,
        (cs.map (fun e => e.2.2)).getD 2 0),
       ((cs.map (fun e => e.2.2)).getD 0 0, (cs.map (fun e => e.2.2)).getD 2 0,
        (cs.map (fun e => e.2.2)).getD 3 0)] := by
  rcases cs with _ | ⟨a, _ | ⟨b, _ | ⟨c, _ | ⟨d, _ | ⟨e, t⟩⟩⟩⟩⟩ <;> simp_all [faceTris]

/-- The single triangle of a 3-record corner list. -/
theorem faceTris_of_length_three {K : Type} (cs : List (K × Nat × Nat)) (h : cs.length = 3) :
    faceTris cs =
      [((cs.map (fun e => e.2.2)).getD 0 0, (cs.map (fun e => e.2.2)).getD 1 0,
        (cs.map (fun e => e.2.2)).getD 2 0)] := by
  rcases cs with _ | ⟨a, _ | ⟨b, _ | ⟨c, _ | ⟨d, t⟩⟩⟩⟩ <;> simp_all [faceTris]

/-- A 3- or 4-record corner list yields 1 or 2 triangles respectively. -/
theorem faceTris_length {K : Type} (cs : List (K × Nat × Nat))
    (h : cs.length = 3 ∨ cs.length = 4) :
    (faceTris cs).length = if cs.length = 4 then 2 else 1 := by
  rcases cs with _ | ⟨a, _ | ⟨b, _ | ⟨c, _ | ⟨d, _ | ⟨e, t⟩⟩⟩⟩⟩ <;> simp_all [faceTris]

/-- C1: in full-triangulation mode, for a face group all of whose faces have
3 or 4 corners: the emitted triangle list is exactly the concatenation, in
face order, of per-face blocks — a 4-corner face contributing exactly the
two fan triangles over its corners (0,1,2) and (0,2,3) and a 3-corner face
exactly the one triangle (0,1,2), so the triangle count is 2 per quad and 1
per triangle; every face corner resolves to exactly one welded output vertex
for its (original vertex, active-attribute key) class — corners sharing
vertex and key resolve to the same record, and no two records of
`vert_tri_list` share a class; and corners sharing the original vertex but
differing in key resolve to distinct output vertex indices. -/
theorem c1_full_triangulation_welding {K : Type} [DecidableEq K] (key : Nat → Nat → K)
    (mfv : List (List Nat)) (fg : List Nat)
    (hlen : ∀ i ∈ fg, (mfv.getD i []).length = 3 ∨ (mfv.getD i []).length = 4) :
    ((weldGroup key mfv fg).2 =
      (fg.map (fun i => faceTris (cornerOuts (weldGroup key mfv fg).1 key mfv i))).flatten) ∧
    (∀ i ∈ fg, (cornerOuts (weldGroup key mfv fg).1 key mfv i).length =
      (mfv.getD i []).length) ∧
    (∀ i ∈ fg,
      ((mfv.getD i []).length = 4 →
        faceTris (cornerOuts (weldGroup key mfv fg).1 key mfv i) =
          [(((cornerOuts (weldGroup key mfv fg).1 key mfv i).map (fun e => e.2.2)).getD 0 0,
            ((cornerOuts (weldGroup key mfv fg).1 key mfv i).map (fun e => e.2.2)).getD 1 0,
            ((cornerOuts (weldGroup key mfv fg).1 key mfv i).map (fun e => e.2.2)).getD 2 0),
           (((cornerOuts (weldGroup key mfv fg).1 key mfv i).map (fun e => e.2.2)).getD 0 0,
            ((cornerOuts (weldGroup key mfv fg).1 key mfv i).map (fun e => e.2.2)).getD 2 0,
            ((cornerOuts (weldGroup key mfv fg).1 key mfv i).map (fun e => e.2.2)).getD 3 0)]) ∧
      ((mfv.getD i []).length = 3 →
        faceTris (cornerOuts (weldGroup key mfv fg).1 key mfv i) =
          [(((cornerOuts (weldGroup key mfv fg).1 key mfv i).map (fun e => e.2.2)).getD 0 0,
            ((cornerOuts (weldGroup key mfv fg).1 key mfv i).map (fun e => e.2.2)).getD 1 0,
            ((cornerOuts (weldGroup key mfv fg).1 key mfv i).map (fun e => e.2.2)).getD 2 0)])) ∧
    ((weldGroup key mfv fg).2.length =
      (fg.map (fun i => if (mfv.getD i []).length = 4 then 2 else 1)).sum) ∧
    (∀ i ∈ fg, ∀ j, j < (mfv.getD i []).length →
      ∃ e, findKey ((weldGroup key mfv fg).1.vertex_hash ((mfv.getD i []).getD j 0))
          (key i j) = some e ∧
        e.1 = key i j ∧ e.2.1 = (mfv.getD i []).getD j 0 ∧
        (∃ h2 : e.2.2 < (weldGroup key mfv fg).1.vert_tri_list.length,
          ((weldGroup key mfv fg).1.vert_tri_list)[e.2.2] = e) ∧
        (∀ n (hn : n < (weldGroup key mfv fg).1.vert_tri_list.length),
          (((weldGroup key mfv fg).1.vert_tri_list)[n]).1 = key i j →
          (((weldGroup key mfv fg).1.vert_tri_list)[n]).2.1 = (mfv.getD i []).getD j 0 →
          n = e.2.2)) ∧
    (∀ i i2 j j2, (mfv.getD i []).getD j 0 = (mfv.getD i2 []).getD j2 0 →
      key i j = key i2 j2 →
      findKey ((weldGroup key mfv fg).1.vertex_hash ((mfv.getD i []).getD j 0)) (key i j) =
        findKey ((weldGroup key mfv fg).1.vertex_hash ((mfv.getD i2 []).getD j2 0))
          (key i2 j2)) ∧
    (∀ i ∈ fg, ∀ i2 ∈ fg, ∀ j j2, j < (mfv.getD i []).length → j2 < (mfv.getD i2 []).length →
      (mfv.getD i []).getD j 0 = (mfv.getD i2 []).getD j2 0 →
      key i j ≠ key i2 j2 →
      ∀ e e2,
        findKey ((weldGroup key mfv fg).1.vertex_hash ((mfv.getD i []).getD j 0))
          (key i j) = some e →
        findKey ((weldGroup key mfv fg).1.vertex_hash ((mfv.getD i2 []).getD j2 0))
          (key i2 j2) = some e2 →
        e.2.2 ≠ e2.2.2) := by
  obtain ⟨hinv, _, htris, hlens, hbind⟩ :=
    weldGroupAux_spec key mfv fg (initWeld K) (WInv_init K)
  have hw : weldGroup key mfv fg = weldGroupAux key mfv fg (initWeld K) := rfl
  obtain ⟨inv1, inv2, inv3, inv4, inv5⟩ := hinv
  rw [hw]
  refine ⟨htris, hlens, ?_, ?_, ?_, ?_, ?_⟩
  · intro i hi
    constructor
    · intro h4
      exact faceTris_of_length_four _ (by rw [hlens i hi]; exact h4)
    · intro h3
      exact faceTris_of_length_three _ (by rw [hlens i hi]; exact h3)
  · rw [htris, List.length_flatten, List.map_map]
    congr 1
    apply List.map_congr_left
    intro i hi
    have hli := hlens i hi
    have h34 : (cornerOuts (weldGroupAux key mfv fg (initWeld K)).1 key mfv i).length = 3 ∨
        (cornerOuts (weldGroupAux key mfv fg (initWeld K)).1 key mfv i).length = 4 := by
      rw [hli]
      exact hlen i hi
    simp only [Function.comp_apply]
    rw [faceTris_length _ h34, hli]
  · intro i hi j hj
    obtain ⟨e, hfind, hek, hev⟩ := hbind i hi j hj
    have hmem : e ∈ (weldGroupAux key mfv fg (initWeld K)).1.vertex_hash
        ((mfv.getD i []).getD j 0) := List.mem_of_find?_eq_some hfind
    have hverts : e ∈ (weldGroupAux key mfv fg (initWeld K)).1.vert_tri_list :=
      inv3 _ e hmem
    refine ⟨e, hfind, hek, hev, WInv_entry_at_own_index ⟨inv1, inv2, inv3, inv4, inv5⟩ hverts,
      ?_⟩
    intro n hn h1 h2
    have hbmem := List.getElem_mem hn
    have hbhash := inv4 _ hbmem
    rw [h2] at hbhash
    have hbe : ((weldGroupAux key mfv fg (initWeld K)).1.vert_tri_list)[n] = e :=
      pairwise_keys_eq (inv2 _) _ hbhash e hmem (by rw [h1, hek])
    have := inv5 n hn
    rw [hbe] at this
    omega
  · intro i i2 j j2 hveq hkeq
    rw [hveq, hkeq]
  · intro i hi i2 hi2 j j2 hj hj2 hveq hkne e e2 hfe hfe2 hcontra
    have hek : e.1 = key i j := by
      have := List.find?_some hfe
      simpa using this
    have hek2 : e2.1 = key i2 j2 := by
      have := List.find?_some hfe2
      simpa using this
    have hm1 : e ∈ (weldGroupAux key mfv fg (initWeld K)).1.vert_tri_list :=
      inv3 _ e (List.mem_of_find?_eq_some hfe)
    have hm2 : e2 ∈ (weldGroupAux key mfv fg (initWeld K)).1.vert_tri_list :=
      inv3 _ e2 (List.mem_of_find?_eq_some hfe2)
    obtain ⟨ha, hea⟩ := WInv_entry_at_own_index ⟨inv1, inv2, inv3, inv4, inv5⟩ hm1
    obtain ⟨hb, heb⟩ := WInv_entry_at_own_index ⟨inv1, inv2, inv3, inv4, inv5⟩ hm2
    apply hkne
    rw [← hek, ← hek2]
    have : e = e2 := by
      rw [← hea, ← heb]
      congr 1
    rw [this]

/-- C1 witness: a quad and a triangle sharing original vertices, keyed by
corner index: the quad fans into (0,1,2) and (0,2,3); the triangle's first
corner reuses the quad's first welded vertex (same original vertex, same
key), while its other corners — same original vertices as the quad's but
different keys — get the fresh output vertices 4 and 5. -/
theorem c1_full_triangulation_welding_witness :
    ((weldGroup (fun _ j => j) [[0, 1, 2, 3], [0, 2, 3]] [0, 1]).2 =
      ([0, 1].map (fun i =>
        faceTris (cornerOuts (weldGroup (fun _ j => j) [[0, 1, 2, 3], [0, 2, 3]] [0, 1]).1
          (fun _ j => j) [[0, 1, 2, 3], [0, 2, 3]] i))).flatten) ∧
    ((weldGroup (fun _ j => j) [[0, 1, 2, 3], [0, 2, 3]] [0, 1]).2 =
      [(0, 1, 2), (0, 2, 3), (0, 4, 5)]) :=
  ⟨(c1_full_triangulation_welding (fun _ j => j) [[0, 1, 2, 3], [0, 2, 3]] [0, 1]
      (by decide)).1,
   by decide⟩

end X3D
